import Mathlib

/-!
# Verification of the OSRS collection-log dependency builder

A shallow embedding of `clog_dependency_builder.py`: the recipe graph, the
variant linker, the memoized minimum-dependency resolver, and the output
projector, together with theorems checking the specification's claims.

Python `dict`s are modelled as association lists with insert-or-replace
semantics (preserving insertion order, as Python dicts do), Python `set`s of
strings as `Finset String`, sets of item ids as `Finset Nat`, and the
unbounded recursion of the resolver as structural recursion on an explicit
fuel parameter (the source terminates because the visited set grows inside a
finite name universe; fuel exhaustion returns the empty set without caching).
-/

namespace ClogBuilder

/-- Model of Python `str.lower()` (ASCII case folding, as in the wiki data).
`String.toLower` is definitionally `⟨s.data.map Char.toLower⟩` (see
`String.map_eq`), but this data-level form reduces in the kernel. -/
def pyLower (s : String) : String := ⟨s.data.map Char.toLower⟩

/-- Model of Python `str.endswith(suffix)`. -/
def pyEndsWith (s suffix : String) : Bool := suffix.data.isSuffixOf s.data

/-- Model of the Python slice `s[:-n]` for `0 < n ≤ len(s)` (the only way the
source uses it, guarded by `endswith`). -/
def pyDropRight (s : String) (n : Nat) : String := ⟨s.data.take (s.data.length - n)⟩

/-- Model of the source's `.replace("#", " ")` (single-character pattern). -/
def replaceHash (s : String) : String := ⟨s.data.map (fun c => if c = '#' then ' ' else c)⟩

theorem char_toLower_of_not_upper (c : Char) (h : ¬(65 ≤ c.toNat ∧ c.toNat ≤ 90)) :
    c.toLower = c := by
  rw [Char.toLower]
  simp only [ge_iff_le]
  rw [if_neg h]

theorem char_toNat_toLower_of_upper (c : Char) (h : 65 ≤ c.toNat ∧ c.toNat ≤ 90) :
    c.toLower.toNat = c.toNat + 32 := by
  have hv : (c.toNat + 32).isValidChar := Or.inl (by omega)
  rw [Char.toLower]
  simp only [ge_iff_le]
  rw [if_pos ⟨h.1, h.2⟩]
  rw [Char.ofNat, dif_pos hv]
  rfl

theorem char_toLower_idem (c : Char) : c.toLower.toLower = c.toLower := by
  by_cases h : 65 ≤ c.toNat ∧ c.toNat ≤ 90
  · have h1 : c.toLower.toNat = c.toNat + 32 := char_toNat_toLower_of_upper c h
    exact char_toLower_of_not_upper _ (by omega)
  · rw [char_toLower_of_not_upper c h, char_toLower_of_not_upper c h]

/-- Python `.lower()` is idempotent; used because the source re-lowers names
that are already lowercase at every recursion step. -/
theorem pyLower_idem (s : String) : pyLower (pyLower s) = pyLower s := by
  simp only [pyLower, List.map_map]
  congr 1
  apply List.map_congr_left
  intro c _
  exact char_toLower_idem c

/-! ## Association-list model of Python dicts -/

/-- Key lookup in an association list (Python `d.get(k)` / `k in d`). -/
def lookupA {α : Type} : List (String × α) → String → Option α
  | [], _ => none
  | (k, v) :: rest, n => if k = n then some v else lookupA rest n

/-- Insert-or-replace (Python `d[k] = v`): replaces in place, appends new keys
at the end, exactly like Python dict insertion order. -/
def insertA {α : Type} : List (String × α) → String → α → List (String × α)
  | [], n, v => [(n, v)]
  | (k, w) :: rest, n, v => if k = n then (k, v) :: rest else (k, w) :: insertA rest n v

/-- Key removal (Python `del d[k]` for a present key). -/
def eraseA {α : Type} : List (String × α) → String → List (String × α)
  | [], _ => []
  | (k, w) :: rest, n => if k = n then rest else (k, w) :: eraseA rest n

@[simp] theorem lookupA_nil {α : Type} (n : String) : lookupA ([] : List (String × α)) n = none := rfl

@[simp] theorem lookupA_cons {α : Type} (k : String) (v : α) (rest : List (String × α)) (n : String) :
    lookupA ((k, v) :: rest) n = if k = n then some v else lookupA rest n := rfl

theorem lookupA_insertA {α : Type} (l : List (String × α)) (k n : String) (v : α) :
    lookupA (insertA l k v) n = if k = n then some v else lookupA l n := by
  induction l with
  | nil => simp [insertA]
  | cons hd tl ih =>
    obtain ⟨k', w⟩ := hd
    by_cases hk : k' = k
    · subst hk
      simp only [insertA, if_pos rfl, lookupA_cons]
      by_cases hn : k' = n
      · simp [hn]
      · simp [hn]
    · simp only [insertA, if_neg hk, lookupA_cons, ih]
      by_cases hn : k' = n
      · subst hn
        simp [Ne.symm hk]
      · simp [hn]

theorem lookupA_eraseA_of_ne {α : Type} (l : List (String × α)) (k n : String) (h : k ≠ n) :
    lookupA (eraseA l k) n = lookupA l n := by
  induction l with
  | nil => simp [eraseA]
  | cons hd tl ih =>
    obtain ⟨k', w⟩ := hd
    by_cases hk : k' = k
    · subst hk
      show lookupA (if k' = k' then tl else (k', w) :: eraseA tl k') n = lookupA ((k', w) :: tl) n
      rw [if_pos rfl, lookupA_cons, if_neg h]
    · show lookupA (if k' = k then tl else (k', w) :: eraseA tl k) n = lookupA ((k', w) :: tl) n
      rw [if_neg hk, lookupA_cons, lookupA_cons, ih]

/-! ## Data model -/

/-- `Item` dataclass from the source. -/
structure Item where
  item_id : Nat
  name : String
  is_clog_item : Bool
  clog_tabs : List String
deriving DecidableEq, Repr

/-- The resolver's `_min_dep_cache`: item name (lowercase) ↦
(minimum dependency set, index of the chosen recipe; `-1` means "no recipe"). -/
abbrev Cache := List (String × (Finset Nat × Int))

/-- `self.clog_names = {item.name.lower(): item_id for ...}` (a dict
comprehension: later duplicates overwrite earlier ones). -/
def mkClogNames (items : List (Nat × Item)) : List (String × Nat) :=
  items.foldl (fun acc p => insertA acc (pyLower p.2.name) p.1) []

/-! ## Dependency resolver core -/

/-- Body of `find_clog_dependencies_for_recipe`: fold over the materials,
adding the material's own clog id (if it is a catalog name) and the
recursive minimum dependencies, threading the cache, skipping visited names.
`fm` is the recursive `find_minimum_clog_dependencies` at the current fuel. -/
def findRecAux (fm : Cache → Finset String → String → Finset Nat × Cache)
    (clogs : List (String × Nat)) :
    List String → Cache → Finset String → Finset Nat → Finset Nat × Cache
  | [], cache, _, deps => (deps, cache)
  | m :: ms, cache, visited, deps =>
    let ml := pyLower m
    if ml ∈ visited then findRecAux fm clogs ms cache visited deps
    else
      let deps1 := match lookupA clogs ml with
        | some cid => insert cid deps
        | none => deps
      let r := fm cache visited ml
      findRecAux fm clogs ms r.2 visited (deps1 ∪ r.1)

/-- The recipe-selection loop of `find_minimum_clog_dependencies`: track the
alternative with the smallest dependency set, keeping the first on ties
(strict `<`), and stop as soon as an alternative yields the empty set.
`best` carries `(set, index)`; `-1`/empty when no recipe was scanned. -/
def minRecipesAux (frec : List String → Cache → Finset Nat × Cache) :
    List (List String) → Cache → Nat → Option (Finset Nat × Nat) → (Finset Nat × Int) × Cache
  | [], cache, _, best =>
    (match best with
     | some (d, i) => ((d, (i : Int)), cache)
     | none => ((∅, -1), cache))
  | r :: rs, cache, idx, best =>
    let res := frec r cache
    let takeIt := match best with
      | none => true
      | some (d, _) => decide (res.1.card < d.card)
    if takeIt then
      if res.1.card = 0 then ((res.1, (idx : Int)), res.2)
      else minRecipesAux frec rs res.2 (idx + 1) (some (res.1, idx))
    else minRecipesAux frec rs res.2 (idx + 1) best

/-- `DependencyResolver.find_minimum_clog_dependencies`, on explicit fuel.
Order of the source's steps: cache hit, visited (cycle) check, catalog
short-circuit, no-recipe base case, then the minimum-recipe loop. -/
def findMin (clogs : List (String × Nat)) (recipes : List (String × List (List String))) :
    Nat → Cache → Finset String → String → Finset Nat × Cache
  | 0, cache, _, _ => (∅, cache)
  | fuel + 1, cache, visited, itemName =>
    let n := pyLower itemName
    match lookupA cache n with
    | some si => (si.1, cache)
    | none =>
      if n ∈ visited then (∅, cache)
      else
        let visited' := insert n visited
        match lookupA clogs n with
        | some cid => ({cid}, insertA cache n ({cid}, 0))
        | none =>
          match (lookupA recipes n).getD [] with
          | [] => (∅, insertA cache n (∅, -1))
          | r :: rs =>
            let res := minRecipesAux
              (fun mats c => findRecAux (findMin clogs recipes fuel) clogs mats c visited' ∅)
              (r :: rs) cache 0 none
            (res.1.1, insertA res.2 n res.1)

/-- `DependencyResolver.find_clog_dependencies_for_recipe` (public entry:
fresh empty visited set unless one is passed). -/
def findRec (clogs : List (String × Nat)) (recipes : List (String × List (List String)))
    (fuel : Nat) (materials : List String) (cache : Cache) (visited : Finset String) :
    Finset Nat × Cache :=
  findRecAux (findMin clogs recipes fuel) clogs materials cache visited ∅

/-- `DependencyResolver.is_item_restricted`: nonempty minimum set. -/
def isItemRestricted (clogs : List (String × Nat)) (recipes : List (String × List (List String)))
    (fuel : Nat) (cache : Cache) (itemName : String) : Bool × Cache :=
  let r := findMin clogs recipes fuel cache ∅ itemName
  (decide (0 < r.1.card), r.2)

/-- Fold for `get_all_recipes_with_deps`: each recipe is paired with the
dependencies of that recipe alone, computed with a fresh empty visited set,
threading the cache. -/
def getAllAux (frec : List String → Cache → Finset Nat × Cache) :
    List (List String) → Cache → List (List String × Finset Nat) × Cache
  | [], c => ([], c)
  | r :: rs, c =>
    let res := frec r c
    let rest := getAllAux frec rs res.2
    ((r, res.1) :: rest.1, rest.2)

/-- `DependencyResolver.get_all_recipes_with_deps`. -/
def getAllRecipesWithDeps (clogs : List (String × Nat))
    (recipes : List (String × List (List String))) (fuel : Nat) (cache : Cache)
    (itemName : String) : List (List String × Finset Nat) × Cache :=
  let nl := pyLower itemName
  let rs := (lookupA recipes nl).getD []
  getAllAux (fun mats c => findRec clogs recipes fuel mats c ∅) rs cache

/-! ## Variant linker -/

/-- The static `VARIANT_PATTERNS` table: `(base_suffix, variant_suffix, kind)`,
in the source's priority order. -/
def VARIANT_PATTERNS : List (String × String × String) :=
  [(" (uncharged)", "", "charged"),
   (" (u)", "", "charged"),
   (" (uncharged)", " of the dead", "charged_of_the_dead"),
   (" (10)", "", "degraded"),
   ("", " (l)", "locked"),
   ("", " (locked)", "locked"),
   ("", " (broken)", "broken"),
   ("", " (damaged)", "damaged"),
   (" (inactive)", "", "active"),
   ("", " (inactive)", "inactive"),
   (" (empty)", "", "filled"),
   ("", " (s)", "silver"),
   (" (disassembled)", "", "assembled"),
   ("", " 0", "barrows_degraded"),
   ("", " 25", "barrows_degraded"),
   ("", " 50", "barrows_degraded"),
   ("", " 75", "barrows_degraded"),
   ("", " 100", "barrows_degraded")]

/-- Mutable resolver state touched by the linker: the recipe graph and the
resolution cache (`clog_names` never changes, so it stays a parameter). -/
structure RState where
  recipes : List (String × List (List String))
  cache : Cache
deriving DecidableEq

/-- The candidate variant name a pattern derives from a base name: strip the
base suffix (when there is one) and append the variant suffix. -/
def variantNameOf (base : String) (pat : String × String × String) : String :=
  if pat.1 ≠ "" then pyDropRight base pat.1.length ++ pyLower pat.2.1
  else base ++ pyLower pat.2.1

/-- One iteration of the pattern loop in `_process_variant_patterns`:
derive the variant name, run the three skip checks, then either append the
base as an extra material to every existing recipe (erasing the variant's
cache entry) or synthesize a virtual recipe `[[base]]`.
Returns `(state, added, updated)`. -/
def processOnePattern (base : String) (allIds : List (String × List Nat))
    (clogs : List (String × Nat)) (st : RState) (pat : String × String × String) :
    RState × Nat × Nat :=
  let baseSuffix := pat.1
  if baseSuffix ≠ "" ∧ ¬ (pyEndsWith base (pyLower baseSuffix) = true) then (st, 0, 0)
  else
    let variantName := variantNameOf base pat
    if lookupA allIds variantName = none then (st, 0, 0)
    else if (lookupA clogs variantName).isSome then (st, 0, 0)
    else if variantName = base then (st, 0, 0)
    else
      match lookupA st.recipes variantName with
      | some rs =>
        let hasBase := rs.any (fun r => r.contains base)
        if hasBase then (st, 0, 0)
        else
          let newRecipes := insertA st.recipes variantName (rs.map (fun r => r ++ [base]))
          let newCache :=
            if (lookupA st.cache variantName).isSome then eraseA st.cache variantName
            else st.cache
          (⟨newRecipes, newCache⟩, 0, 1)
      | none => (⟨insertA st.recipes variantName [[base]], st.cache⟩, 1, 0)

/-- Fold of `processOnePattern` over a pattern list, accumulating the
`(added, updated)` counters. -/
def processPatternsAux (base : String) (allIds : List (String × List Nat))
    (clogs : List (String × Nat)) :
    List (String × String × String) → RState → Nat → Nat → RState × Nat × Nat
  | [], st, a, u => (st, a, u)
  | p :: ps, st, a, u =>
    let r := processOnePattern base allIds clogs st p
    processPatternsAux base allIds clogs ps r.1 (a + r.2.1) (u + r.2.2)

/-- `DependencyResolver._process_variant_patterns`. -/
def processVariantPatterns (base : String) (allIds : List (String × List Nat))
    (clogs : List (String × Nat)) (st : RState) : RState × Nat × Nat :=
  processPatternsAux base allIds clogs VARIANT_PATTERNS st 0 0

/-- Phase 1 of `build_variant_relationships`: run the pattern pass for every
catalog item name. -/
def phase1Aux (allIds : List (String × List Nat)) (clogs : List (String × Nat)) :
    List (Nat × Item) → RState → RState
  | [], st => st
  | (_, it) :: rest, st =>
    phase1Aux allIds clogs rest (processVariantPatterns (pyLower it.name) allIds clogs st).1

/-- Phase 2 of `build_variant_relationships`: for each snapshotted derived
item name, resolve it (threading the cache) and, when the minimum set is
nonempty, run the pattern pass with that name as the base. -/
def phase2Aux (fuel : Nat) (allIds : List (String × List Nat)) (clogs : List (String × Nat)) :
    List String → RState → RState
  | [], st => st
  | nm :: rest, st =>
    let r := findMin clogs st.recipes fuel st.cache ∅ nm
    let st1 : RState := ⟨st.recipes, r.2⟩
    if r.1 = ∅ then phase2Aux fuel allIds clogs rest st1
    else phase2Aux fuel allIds clogs rest (processVariantPatterns nm allIds clogs st1).1

/-- `DependencyResolver.build_variant_relationships`: phase 1 over the catalog
items, then phase 2 over a snapshot of the non-catalog recipe keys taken
after phase 1. -/
def buildVariantRelationships (fuel : Nat) (clogItems : List (Nat × Item))
    (clogs : List (String × Nat)) (allIds : List (String × List Nat)) (st : RState) : RState :=
  let st1 := phase1Aux allIds clogs clogItems st
  let derivedToCheck := (st1.recipes.map Prod.fst).filter (fun n => (lookupA clogs n).isNone)
  phase2Aux fuel allIds clogs derivedToCheck st1

/-! ## Recipe graph builder -/

/-- The `output` field of a parsed `production_json`: absent/falsy, a string
(both skipped), or an object with an optional `name`. -/
inductive OutputField where
  | absent : OutputField
  | strVal : String → OutputField
  | objVal : Option String → OutputField
deriving DecidableEq, Repr

/-- One entry of a `materials` array: an object with an optional `name`. -/
structure MaterialRecord where
  name : Option String
deriving DecidableEq, Repr

/-- A parsed `production_json` object. -/
structure Production where
  output : OutputField
  materials : List MaterialRecord
deriving DecidableEq, Repr

/-- A raw recipe record. `production_json = none` models a missing or empty
field; `some none` models a JSON string that fails to parse; `some (some p)`
a successful parse. -/
structure RecipeRecord where
  production_json : Option (Option Production)
deriving DecidableEq, Repr

/-- `recipes_by_item[output_name].append(material_names)` on a `defaultdict`:
append to the existing alternatives, or append a new key at the end. -/
def appendRecipe (acc : List (String × List (List String))) (k : String)
    (mats : List String) : List (String × List (List String)) :=
  match lookupA acc k with
  | some rs => insertA acc k (rs ++ [mats])
  | none => acc ++ [(k, [mats])]

/-- The per-record body of `build_recipe_graph`: malformed records (missing or
unparseable `production_json`, missing/string/empty-named output, no usable
materials) are skipped; otherwise the recipe is stored as a separate
alternative. -/
def addRecipeRecord (acc : List (String × List (List String))) (r : RecipeRecord) :
    List (String × List (List String)) :=
  match r.production_json with
  | none => acc
  | some none => acc
  | some (some p) =>
    match p.output with
    | .absent => acc
    | .strVal _ => acc
    | .objVal nameOpt =>
      let outputName := replaceHash (pyLower (nameOpt.getD ""))
      if outputName = "" then acc
      else
        let materialNames := p.materials.filterMap (fun m =>
          match m.name with
          | none => none
          | some s => if s = "" then none else some (replaceHash (pyLower s)))
        if materialNames = [] then acc
        else appendRecipe acc outputName materialNames

/-- `DependencyResolver.build_recipe_graph`. -/
def buildRecipeGraph (records : List RecipeRecord) : List (String × List (List String)) :=
  records.foldl addRecipeRecord []

/-! ## Output projector -/

/-- One `collectionLogItems` entry of the output document. -/
structure ClogEntry where
  name : String
  tabs : List String
  all_ids : List Nat
  craftable_from : Option (List (List Nat))
deriving DecidableEq, Repr

/-- `find_clog_crafting_recipes`: per recipe, keep only catalog materials;
drop recipes with none; `none` when nothing remains. -/
def findClogCraftingRecipes (itemNameLower : String) (clogs : List (String × Nat))
    (recipes : List (String × List (List String))) : Option (List (List Nat)) :=
  let rs := (lookupA recipes itemNameLower).getD []
  let clogRecipes := rs.filterMap (fun mats =>
    let clogMaterials := mats.filterMap (fun m => lookupA clogs (pyLower m))
    if clogMaterials = [] then none
    else some (clogMaterials.insertionSort (· ≤ ·)))
  if clogRecipes = [] then none else some clogRecipes

/-- The `collectionLogItems` construction inside `generate_output_json`:
start from the entry's own id, add bucket ids that are neither the own id
nor the id of any catalog entry, and sort. -/
def buildClogItemsOutput (clogItems : List (Nat × Item)) (allIds : List (String × List Nat))
    (clogs : List (String × Nat)) (recipes : List (String × List (List String))) :
    List (String × ClogEntry) :=
  let allClogIds := clogItems.map Prod.fst
  clogItems.map (fun p =>
    let nl := pyLower p.2.name
    let bucketIds := (lookupA allIds nl).getD []
    let ids := p.1 :: bucketIds.filter (fun e => decide (e ≠ p.1 ∧ e ∉ allClogIds))
    let sortedIds := ids.insertionSort (· ≤ ·)
    (toString p.1,
     { name := p.2.name, tabs := p.2.clog_tabs, all_ids := sortedIds,
       craftable_from := findClogCraftingRecipes nl clogs recipes }))

/-- A manual-override record. `item_ids = none` models a record whose
`item_ids` key is absent (the source accesses it unconditionally with
`recipe["item_ids"]`). -/
structure ManualRecipe where
  item_ids : Option (List Nat)
  clog_dependencies : List Nat
deriving DecidableEq, Repr

/-- The strip loop of `process_manual_recipes`: drop the manual ids from every
catalog entry's `all_ids` (the entry is rewritten only when it shrank). -/
def stripIdsFromClogEntries (ids : List Nat) (out : List (String × ClogEntry)) :
    List (String × ClogEntry) :=
  out.map (fun p =>
    let original := p.2.all_ids
    let filtered := original.filter (fun i => decide (i ∉ ids))
    if filtered.length < original.length then (p.1, { p.2 with all_ids := filtered }) else p)

/-- Fold of `process_manual_recipes` over the manual records: store the record
under the lowered name, then read `recipe["item_ids"]`, which raises
(`Except.error`) when the key is absent. -/
def processManualRecipesAux :
    List (String × ManualRecipe) → List (String × ClogEntry) → List (String × ManualRecipe) →
    Except String (List (String × ClogEntry) × List (String × ManualRecipe))
  | [], clogOut, derived => .ok (clogOut, derived)
  | (nm, r) :: rest, clogOut, derived =>
    let derived' := insertA derived (pyLower nm) r
    match r.item_ids with
    | none => .error "KeyError: item_ids"
    | some ids => processManualRecipesAux rest (stripIdsFromClogEntries ids clogOut) derived'

/-- `process_manual_recipes` (early return when there are no manual records). -/
def processManualRecipes (clogOut : List (String × ClogEntry))
    (derived : List (String × ManualRecipe)) (manual : List (String × ManualRecipe)) :
    Except String (List (String × ClogEntry) × List (String × ManualRecipe)) :=
  if manual.isEmpty then .ok (clogOut, derived)
  else processManualRecipesAux manual clogOut derived

/-! ## Semantic notion for claim C1: catalog-free producibility -/

/-- `ProducibleFree clogs recipes n`: the item named `n` (lowercase) has at
least one finite production path entirely free of catalog-item materials —
either it is a base resource (no recipes, not a catalog name), or some recipe
alternative has all of its materials producible catalog-free.
This is the spec's "any alternative path is entirely free of CatalogItem
materials"; its negation is "every Recipe alternative (transitively) requires
at least one CatalogItem". -/
inductive ProducibleFree (clogs : List (String × Nat))
    (recipes : List (String × List (List String))) : String → Prop where
  | leaf : ∀ n, lookupA clogs n = none → (lookupA recipes n).getD [] = [] →
      ProducibleFree clogs recipes n
  | step : ∀ n r, lookupA clogs n = none → r ∈ (lookupA recipes n).getD [] →
      (∀ m ∈ r, ProducibleFree clogs recipes (pyLower m)) →
      ProducibleFree clogs recipes n

theorem ProducibleFree.not_clog {clogs recipes n} (h : ProducibleFree clogs recipes n) :
    lookupA clogs n = none := by
  cases h with
  | leaf _ hc _ => exact hc
  | step _ _ hc _ _ => exact hc

/-! ## Claim C9 -/

/-- C9: for every item name `x` that is a catalog (collection-log) item name,
a public call to `find_minimum_clog_dependencies(x)` (empty visited set, cache
holding at most the entry the resolver itself would write for a catalog name)
returns exactly the singleton of that item's own id, regardless of whether `x`
also has recipe entries. -/
theorem catalog_item_resolves_to_own_id
    (clogs : List (String × Nat)) (recipes : List (String × List (List String)))
    (fuel : Nat) (cache : Cache) (x : String) (cid : Nat)
    (hclog : lookupA clogs (pyLower x) = some cid)
    (hcache : lookupA cache (pyLower x) = none ∨ lookupA cache (pyLower x) = some ({cid}, 0)) :
    (findMin clogs recipes (fuel + 1) cache ∅ x).1 = {cid} := by
  unfold findMin
  cases hcache with
  | inl h => simp [h, hclog]
  | inr h => simp [h]

/-- C9 witness: the catalog name "dragon dagger" (id 5) resolves to `{5}` even
though it also has a recipe entry. -/
theorem catalog_item_resolves_to_own_id_witness :
    lookupA [("dragon dagger", 5)] (pyLower "dragon dagger") = some 5 ∧
    (findMin [("dragon dagger", 5)] [("dragon dagger", [["bronze bar"]])] 9 [] ∅
      "dragon dagger").1 = {5} :=
  ⟨by decide,
   catalog_item_resolves_to_own_id [("dragon dagger", 5)] [("dragon dagger", [["bronze bar"]])]
     8 [] "dragon dagger" 5 (by decide) (Or.inl (by decide))⟩

/-! ## Claim C5 -/

/-- C5: a two-node true cycle (`A`'s only recipe requires `B`, `B`'s only
recipe requires `A`, neither a catalog name) terminates at every fuel with the
empty set; and a name already in the visited set whose cache entry is absent
returns the empty set without touching the cache. -/
theorem cycle_safe_and_visited_returns_empty :
    (∀ (clogs : List (String × Nat)) (A B : String) (fuel : Nat),
      A ≠ B → pyLower A = A → pyLower B = B →
      lookupA clogs A = none → lookupA clogs B = none →
      (findMin clogs [(A, [[B]]), (B, [[A]])] fuel [] ∅ A).1 = ∅) ∧
    (∀ (clogs : List (String × Nat)) (recipes : List (String × List (List String)))
      (fuel : Nat) (cache : Cache) (visited : Finset String) (x : String),
      lookupA cache (pyLower x) = none → pyLower x ∈ visited →
      findMin clogs recipes fuel cache visited x = (∅, cache)) := by
  constructor
  · intro clogs A B fuel hAB hLA hLB hCA hCB
    match fuel with
    | 0 => rfl
    | 1 =>
      simp [findMin, hLA, hLB, hCA, hCB, hAB, minRecipesAux, findRecAux, Ne.symm hAB]
    | (f + 2) =>
      simp [findMin, hLA, hLB, hCA, hCB, hAB, minRecipesAux, findRecAux, Ne.symm hAB]
  · intro clogs recipes fuel cache visited x hc hv
    match fuel with
    | 0 => rfl
    | (f + 1) =>
      unfold findMin
      simp [hc, hv]

/-- C5 witness: the concrete cycle a ↔ b with no catalog items, and the
visited-set early return at a concrete state. -/
theorem cycle_safe_and_visited_returns_empty_witness :
    ("a" ≠ "b" ∧ pyLower "a" = "a" ∧ pyLower "b" = "b" ∧
      lookupA ([] : List (String × Nat)) "a" = none ∧
      lookupA ([] : List (String × Nat)) "b" = none ∧
      (findMin [] [("a", [["b"]]), ("b", [["a"]])] 7 [] ∅ "a").1 = ∅) ∧
    (lookupA ([] : Cache) (pyLower "q") = none ∧ pyLower "q" ∈ ({"q"} : Finset String) ∧
      findMin [] [("q", [["r"]])] 7 [] {"q"} "q" = (∅, [])) :=
  ⟨⟨by decide, by decide, by decide, by decide, by decide,
    cycle_safe_and_visited_returns_empty.1 [] "a" "b" 7 (by decide) (by decide) (by decide)
      (by decide) (by decide)⟩,
   ⟨by decide, by decide,
    cycle_safe_and_visited_returns_empty.2 [] [("q", [["r"]])] 7 [] {"q"} "q" (by decide)
      (by decide)⟩⟩

/-! ## Claim C10 -/

theorem processOnePattern_cache_frame (base : String) (allIds : List (String × List Nat))
    (clogs : List (String × Nat)) (st : RState) (p : String × String × String) (n : String)
    (h : variantNameOf base p ≠ n) :
    lookupA (processOnePattern base allIds clogs st p).1.cache n = lookupA st.cache n := by
  unfold processOnePattern
  dsimp only
  split
  · rfl
  · split
    · rfl
    · split
      · rfl
      · split
        · rfl
        · split
          · split
            · rfl
            · simp only
              split
              · exact lookupA_eraseA_of_ne st.cache _ n h
              · rfl
          · rfl

theorem processPatternsAux_cache_frame (base : String) (allIds : List (String × List Nat))
    (clogs : List (String × Nat)) (ps : List (String × String × String)) (st : RState)
    (a u : Nat) (n : String) (h : ∀ p ∈ ps, variantNameOf base p ≠ n) :
    lookupA (processPatternsAux base allIds clogs ps st a u).1.cache n = lookupA st.cache n := by
  induction ps generalizing st a u with
  | nil => rfl
  | cons p ps ih =>
    unfold processPatternsAux
    rw [ih _ _ _ (fun q hq => h q (List.mem_cons_of_mem p hq))]
    exact processOnePattern_cache_frame base allIds clogs st p n (h p (List.mem_cons_self p ps))

/-- C10: cache invalidation by the variant linker is non-transitive — a call
to `_process_variant_patterns` for a base name leaves the cache entry of every
name that is not one of that base's pattern-derived variant names exactly as
it was (in particular, entries of items whose recipes mention a mutated
variant as a material survive); and any surviving cache entry short-circuits
the next resolution, which returns the pre-mutation cached set. -/
theorem variant_cache_invalidation_is_non_transitive :
    (∀ (st : RState) (base : String) (allIds : List (String × List Nat))
      (clogs : List (String × Nat)) (n : String),
      (∀ p ∈ VARIANT_PATTERNS, variantNameOf base p ≠ n) →
      lookupA (processVariantPatterns base allIds clogs st).1.cache n = lookupA st.cache n) ∧
    (∀ (clogs : List (String × Nat)) (recipes : List (String × List (List String)))
      (fuel : Nat) (cache : Cache) (s : Finset Nat) (i : Int) (x : String),
      lookupA cache (pyLower x) = some (s, i) →
      (findMin clogs recipes (fuel + 1) cache ∅ x).1 = s) := by
  constructor
  · intro st base allIds clogs n h
    exact processPatternsAux_cache_frame base allIds clogs VARIANT_PATTERNS st 0 0 n h
  · intro clogs recipes fuel cache s i x hc
    unfold findMin
    simp [hc]

/-- C10 witness: linking variants of base "d" leaves the cached entry of the
dependent item "e" (whose recipe lists "d (l)" as a material) in place, and a
subsequent resolution of "e" returns that stale pre-mutation set. -/
theorem variant_cache_invalidation_is_non_transitive_witness :
    ((∀ p ∈ VARIANT_PATTERNS, variantNameOf "d" p ≠ "e") ∧
      lookupA (processVariantPatterns "d" [("d", [7]), ("d (l)", [8])] []
        ⟨[("e", [["d (l)"]])], [("e", (∅, -1)), ("d (l)", (∅, -1))]⟩).1.cache "e" =
        lookupA [("e", (∅, -1)), ("d (l)", (∅, -1))] "e") ∧
    (lookupA [("e", ((∅ : Finset Nat), (-1 : Int)))] (pyLower "e") = some (∅, -1) ∧
      (findMin [] [("e", [["d (l)"]]), ("d (l)", [["d"]])] 9
        [("e", (∅, -1))] ∅ "e").1 = ∅) :=
  ⟨⟨by decide,
    variant_cache_invalidation_is_non_transitive.1
      ⟨[("e", [["d (l)"]])], [("e", (∅, -1)), ("d (l)", (∅, -1))]⟩ "d"
      [("d", [7]), ("d (l)", [8])] [] "e" (by decide)⟩,
   ⟨by decide,
    variant_cache_invalidation_is_non_transitive.2 [] [("e", [["d (l)"]]), ("d (l)", [["d"]])]
      8 [("e", (∅, -1))] ∅ (-1) "e" (by decide)⟩⟩

/-! ## Claim C2 -/

theorem eraseA_sublist {α : Type} (l : List (String × α)) (k : String) :
    (eraseA l k).Sublist l := by
  induction l with
  | nil => exact List.Sublist.refl _
  | cons hd tl ih =>
    obtain ⟨k', w⟩ := hd
    by_cases h : k' = k
    · simp only [eraseA, if_pos h]
      exact List.sublist_cons_self _ _
    · simp only [eraseA, if_neg h]
      exact ih.cons₂ _

theorem lookupA_eq_none_of_not_mem {α : Type} (l : List (String × α)) (k : String)
    (h : k ∉ l.map Prod.fst) : lookupA l k = none := by
  induction l with
  | nil => rfl
  | cons hd tl ih =>
    obtain ⟨k', w⟩ := hd
    simp only [List.map_cons, List.mem_cons] at h
    push_neg at h
    have hne : ¬ (k' = k) := fun he => h.1 (Eq.symm he)
    simp only [lookupA_cons, if_neg hne]
    exact ih h.2

theorem lookupA_eraseA_self_of_nodup {α : Type} (l : List (String × α)) (k : String)
    (h : (l.map Prod.fst).Nodup) : lookupA (eraseA l k) k = none := by
  induction l with
  | nil => rfl
  | cons hd tl ih =>
    obtain ⟨k', w⟩ := hd
    simp only [List.map_cons, List.nodup_cons] at h
    by_cases hk : k' = k
    · subst hk
      simp only [eraseA, if_pos rfl]
      exact lookupA_eq_none_of_not_mem tl k' h.1
    · simp only [eraseA, if_neg hk, lookupA_cons, if_neg hk]
      exact ih h.2

/-- The three possible outcomes of one pattern iteration: skip (state
unchanged), update (append the base to every recipe of the variant and erase
its cache entry), or add (synthesize the virtual recipe, cache untouched). -/
theorem processOnePattern_cases (base : String) (allIds : List (String × List Nat))
    (clogs : List (String × Nat)) (st : RState) (p : String × String × String) :
    processOnePattern base allIds clogs st p = (st, 0, 0) ∨
    (∃ rs, lookupA st.recipes (variantNameOf base p) = some rs ∧
      rs.any (fun r => r.contains base) = false ∧
      processOnePattern base allIds clogs st p =
        (⟨insertA st.recipes (variantNameOf base p) (rs.map (fun r => r ++ [base])),
          if (lookupA st.cache (variantNameOf base p)).isSome then
            eraseA st.cache (variantNameOf base p)
          else st.cache⟩, 0, 1)) ∨
    (lookupA st.recipes (variantNameOf base p) = none ∧
      processOnePattern base allIds clogs st p =
        (⟨insertA st.recipes (variantNameOf base p) [[base]], st.cache⟩, 1, 0)) := by
  unfold processOnePattern
  dsimp only
  split
  · exact Or.inl rfl
  · split
    · exact Or.inl rfl
    · split
      · exact Or.inl rfl
      · split
        · exact Or.inl rfl
        · split
          next rs heq =>
            split
            next hb => exact Or.inl rfl
            next hb =>
              refine Or.inr (Or.inl ⟨rs, heq, ?_, rfl⟩)
              exact Bool.not_eq_true _ ▸ Bool.of_not_eq_true hb
          next heq => exact Or.inr (Or.inr ⟨heq, rfl⟩)

/-- Relation between the linker state before (`st0`) and after some prefix of
the pattern loop (`st`): the cache only shrinks; a name whose recipes were
mutated while it already had recipes has no cache entry; a name with no
recipes initially keeps its cache entry untouched and can only have gained
the virtual recipe `[[base]]`; recipe presence is monotone; key nodup of the
cache is preserved. -/
def LinkerStep (base : String) (st0 st : RState) : Prop :=
  (∀ n v, lookupA st.cache n = some v → lookupA st0.cache n = some v) ∧
  (∀ n, lookupA st0.recipes n ≠ none → lookupA st.recipes n ≠ lookupA st0.recipes n →
    lookupA st.cache n = none) ∧
  (∀ n, lookupA st0.recipes n = none →
    lookupA st.cache n = lookupA st0.cache n ∧
    (lookupA st.recipes n = none ∨ lookupA st.recipes n = some [[base]])) ∧
  (∀ n, lookupA st0.recipes n ≠ none → lookupA st.recipes n ≠ none) ∧
  ((st0.cache.map Prod.fst).Nodup → (st.cache.map Prod.fst).Nodup)

theorem LinkerStep.refl (base : String) (st0 : RState) : LinkerStep base st0 st0 :=
  ⟨fun _ _ h => h, fun _ _ h => (h rfl).elim, fun _ h => ⟨rfl, Or.inl h⟩,
   fun _ h => h, id⟩

theorem eraseA_keys_nodup {α : Type} (l : List (String × α)) (k : String)
    (h : (l.map Prod.fst).Nodup) : ((eraseA l k).map Prod.fst).Nodup :=
  h.sublist ((eraseA_sublist l k).map Prod.fst)

theorem LinkerStep.step (base : String) (allIds : List (String × List Nat))
    (clogs : List (String × Nat)) (st0 st : RState) (p : String × String × String)
    (hnd : (st0.cache.map Prod.fst).Nodup) (h : LinkerStep base st0 st) :
    LinkerStep base st0 (processOnePattern base allIds clogs st p).1 := by
  obtain ⟨h1, h2, h3, h4, h5⟩ := h
  rcases processOnePattern_cases base allIds clogs st p with heq | ⟨rs, hrs, hnb, heq⟩ | ⟨hno, heq⟩
  · rw [heq]
    exact ⟨h1, h2, h3, h4, h5⟩
  · rw [heq]
    set v := variantNameOf base p with hv
    have hcache' : ∀ n, n ≠ v →
        lookupA (if (lookupA st.cache v).isSome then eraseA st.cache v else st.cache) n =
        lookupA st.cache n := by
      intro n hn
      split
      · exact lookupA_eraseA_of_ne st.cache v n (fun he => hn (Eq.symm he))
      · rfl
    have hcachev : lookupA
        (if (lookupA st.cache v).isSome then eraseA st.cache v else st.cache) v = none := by
      split
      next hs =>
        exact lookupA_eraseA_self_of_nodup st.cache v (h5 hnd)
      next hs =>
        cases hl : lookupA st.cache v with
        | none => rfl
        | some w => exact absurd (hl ▸ Option.isSome_some) hs
    refine ⟨?_, ?_, ?_, ?_, ?_⟩
    · intro n w hl
      by_cases hn : n = v
      · subst hn
        rw [hcachev] at hl
        exact nomatch hl
      · rw [hcache' n hn] at hl
        exact h1 n w hl
    · intro n hn0 hne
      by_cases hn : n = v
      · rw [hn]
        exact hcachev
      · rw [hcache' n hn]
        refine h2 n hn0 ?_
        rw [lookupA_insertA, if_neg (fun he => hn (Eq.symm he))] at hne
        exact hne
    · intro n hn0
      by_cases hn : n = v
      · exfalso
        rw [hn] at hn0
        rcases (h3 v hn0).2 with hc | hc
        · rw [hc] at hrs
          exact nomatch hrs
        · rw [hc] at hrs
          cases hrs
          simp at hnb
      · rw [hcache' n hn, lookupA_insertA]
        rw [if_neg (fun he => hn (Eq.symm he))]
        exact h3 n hn0
    · intro n hn0
      rw [lookupA_insertA]
      by_cases hn : v = n
      · rw [if_pos hn]
        exact fun he => nomatch he
      · rw [if_neg hn]
        exact h4 n hn0
    · intro hnd0
      split
      · exact eraseA_keys_nodup st.cache v (h5 hnd0)
      · exact h5 hnd0
  · rw [heq]
    set v := variantNameOf base p with hv
    refine ⟨h1, ?_, ?_, ?_, h5⟩
    · intro n hn0 hne
      by_cases hn : n = v
      · exfalso
        rw [hn] at hn0
        exact h4 v hn0 hno
      · refine h2 n hn0 ?_
        rw [lookupA_insertA, if_neg (fun he => hn (Eq.symm he))] at hne
        exact hne
    · intro n hn0
      by_cases hn : n = v
      · rw [hn]
        rw [hn] at hn0
        refine ⟨(h3 v hn0).1, Or.inr ?_⟩
        rw [lookupA_insertA, if_pos rfl]
      · rw [lookupA_insertA, if_neg (fun he => hn (Eq.symm he))]
        exact h3 n hn0
    · intro n hn0
      rw [lookupA_insertA]
      by_cases hn : v = n
      · rw [if_pos hn]
        exact fun he => nomatch he
      · rw [if_neg hn]
        exact h4 n hn0

theorem LinkerStep.fold (base : String) (allIds : List (String × List Nat))
    (clogs : List (String × Nat)) (ps : List (String × String × String)) (st0 st : RState)
    (a u : Nat) (hnd : (st0.cache.map Prod.fst).Nodup) (h : LinkerStep base st0 st) :
    LinkerStep base st0 (processPatternsAux base allIds clogs ps st a u).1 := by
  induction ps generalizing st a u with
  | nil => exact h
  | cons p ps ih =>
    unfold processPatternsAux
    exact ih _ _ _ (LinkerStep.step base allIds clogs st0 st p hnd h)

/-- C2 counterexample: the linker's synthesize branch does not remove the
cache entry. State: variant "d (l)" has no recipes but a stale cache entry
`(∅, -1)`; base "d" has recipes `[["c"]]` with "c" a catalog item (id 1).
After linking, the virtual recipe exists, the cache entry is still present,
and the next resolution returns the stale `∅` instead of the `{1}` the
mutated graph yields from a clean cache. -/
theorem variant_cache_not_removed_on_virtual_recipe :
    (processVariantPatterns "d" [("d", [7]), ("d (l)", [8])] [("c", 1)]
        ⟨[("d", [["c"]])], [("d (l)", (∅, -1))]⟩).1.recipes =
      [("d", [["c"]]), ("d (l)", [["d"]])] ∧
    lookupA (processVariantPatterns "d" [("d", [7]), ("d (l)", [8])] [("c", 1)]
        ⟨[("d", [["c"]])], [("d (l)", (∅, -1))]⟩).1.cache "d (l)" = some (∅, -1) ∧
    (findMin [("c", 1)] [("d", [["c"]]), ("d (l)", [["d"]])] 9
        [("d (l)", (∅, -1))] ∅ "d (l)").1 = ∅ ∧
    (findMin [("c", 1)] [("d", [["c"]]), ("d (l)", [["d"]])] 9 [] ∅ "d (l)").1 = {1} := by
  refine ⟨by decide, by decide, by decide, by decide⟩

/-- C2 (amended): after `_process_variant_patterns`, (i) no cache entry was
added or changed, (ii) every name that had recipes and whose recipe list was
mutated (the append-base branch) has its cache entry removed, but (iii) a
name that had no recipes — even one that receives a synthesized virtual
recipe — keeps its cache entry exactly as it was, so a stale entry is *not*
invalidated in the synthesize case. -/
theorem variant_linker_invalidation_amended (base : String)
    (allIds : List (String × List Nat)) (clogs : List (String × Nat)) (st : RState)
    (hnd : (st.cache.map Prod.fst).Nodup) :
    (∀ n v, lookupA (processVariantPatterns base allIds clogs st).1.cache n = some v →
      lookupA st.cache n = some v) ∧
    (∀ n, lookupA st.recipes n ≠ none →
      lookupA (processVariantPatterns base allIds clogs st).1.recipes n ≠ lookupA st.recipes n →
      lookupA (processVariantPatterns base allIds clogs st).1.cache n = none) ∧
    (∀ n, lookupA st.recipes n = none →
      lookupA (processVariantPatterns base allIds clogs st).1.cache n = lookupA st.cache n) := by
  have h := LinkerStep.fold base allIds clogs VARIANT_PATTERNS st st 0 0 hnd
    (LinkerStep.refl base st)
  exact ⟨h.1, h.2.1, fun n hn => (h.2.2.1 n hn).1⟩

/-- C2 amended witness: at the counterexample state, the no-recipe name
"d (l)" keeps its stale cache entry through the linker pass. -/
theorem variant_linker_invalidation_amended_witness :
    ((([("d (l)", ((∅ : Finset Nat), (-1 : Int)))] : Cache).map Prod.fst).Nodup ∧
      lookupA ([("d", [["c"]])] : List (String × List (List String))) "d (l)" = none) ∧
    lookupA (processVariantPatterns "d" [("d", [7]), ("d (l)", [8])] [("c", 1)]
        ⟨[("d", [["c"]])], [("d (l)", (∅, -1))]⟩).1.cache "d (l)" =
      lookupA [("d (l)", ((∅ : Finset Nat), (-1 : Int)))] "d (l)" :=
  ⟨⟨by decide, by decide⟩,
   (variant_linker_invalidation_amended "d" [("d", [7]), ("d (l)", [8])] [("c", 1)]
      ⟨[("d", [["c"]])], [("d (l)", (∅, -1))]⟩ (by decide)).2.2 "d (l)" (by decide)⟩

/-! ## Claim C3 -/

/-- C3 counterexample: a manual-override record missing the `item_ids` field
makes `process_manual_recipes` raise (`recipe["item_ids"]` is a KeyError), so
the output projector does not complete; the core does raise to its caller on
this malformed input. -/
theorem manual_record_without_item_ids_raises :
    processManualRecipes [] [] [("x", ⟨none, []⟩)] = .error "KeyError: item_ids" := rfl

theorem processManualRecipesAux_ok (manual : List (String × ManualRecipe)) :
    ∀ (clogOut : List (String × ClogEntry)) (derived : List (String × ManualRecipe)),
    (∀ q ∈ manual, q.2.item_ids ≠ none) →
    ∃ res, processManualRecipesAux manual clogOut derived = .ok res := by
  induction manual with
  | nil => exact fun _ _ _ => ⟨_, rfl⟩
  | cons q rest ih =>
    intro clogOut derived hm
    obtain ⟨nm, rec⟩ := q
    unfold processManualRecipesAux
    cases hq : rec.item_ids with
    | none => exact absurd hq (hm (nm, rec) (List.mem_cons_self _ _))
    | some ids => exact ih _ _ (fun q' hq' => hm q' (List.mem_cons_of_mem _ hq'))

/-- C3 (amended): malformed upstream recipe records are skipped silently by
the graph builder (missing/empty `production_json`, unparseable JSON,
missing/string-valued output, empty output name, no usable materials all
leave the graph unchanged), and manual-override processing completes without
raising provided every manual record carries the `item_ids` field — the one
malformed-input shape on which the core does raise. -/
theorem malformed_records_skipped_and_manual_ok (acc : List (String × List (List String)))
    (r : RecipeRecord) (manual : List (String × ManualRecipe))
    (clogOut : List (String × ClogEntry)) (derived : List (String × ManualRecipe))
    (hr : r.production_json = none ∨ r.production_json = some none ∨
      (∃ p, r.production_json = some (some p) ∧
        (p.output = .absent ∨ (∃ s, p.output = .strVal s) ∨
          (∃ o, p.output = .objVal o ∧ replaceHash (pyLower (o.getD "")) = "") ∨
          (∃ o, p.output = .objVal o ∧ p.materials.filterMap (fun m =>
            match m.name with
            | none => none
            | some s => if s = "" then none else some (replaceHash (pyLower s))) = []))))
    (hm : ∀ q ∈ manual, q.2.item_ids ≠ none) :
    addRecipeRecord acc r = acc ∧
    ∃ res, processManualRecipes clogOut derived manual = .ok res := by
  constructor
  · rcases hr with h | h | ⟨p, hp, ho⟩
    · unfold addRecipeRecord
      rw [h]
    · unfold addRecipeRecord
      rw [h]
    · obtain ⟨out, mats⟩ := p
      unfold addRecipeRecord
      rw [hp]
      dsimp only at ho ⊢
      rcases ho with h | ⟨s, h⟩ | ⟨o, h, he⟩ | ⟨o, h, he⟩
      · rw [h]
      · rw [h]
      · rw [h]
        dsimp only at he ⊢
        rw [he, if_pos rfl]
      · rw [h]
        dsimp only at he ⊢
        by_cases hnm : replaceHash (pyLower (o.getD "")) = ""
        · rw [if_pos hnm]
        · rw [if_neg hnm, he, if_pos rfl]
  · unfold processManualRecipes
    split
    · exact ⟨_, rfl⟩
    · exact processManualRecipesAux_ok manual clogOut derived hm

/-- C3 amended witness: a concrete malformed record (empty output name) is
skipped, and a concrete well-formed manual list processes to `.ok`. -/
theorem malformed_records_skipped_and_manual_ok_witness :
    ((⟨some (some ⟨.objVal (some ""), [⟨some "mat"⟩]⟩)⟩ : RecipeRecord).production_json =
        some (some ⟨.objVal (some ""), [⟨some "mat"⟩]⟩) ∧
      (∀ q ∈ [("m", (⟨some [3], [9]⟩ : ManualRecipe))], q.2.item_ids ≠ none)) ∧
    (addRecipeRecord [("k", [["a"]])] ⟨some (some ⟨.objVal (some ""), [⟨some "mat"⟩]⟩)⟩ =
        [("k", [["a"]])] ∧
      ∃ res, processManualRecipes [] [] [("m", (⟨some [3], [9]⟩ : ManualRecipe))] = .ok res) :=
  ⟨⟨rfl, by decide⟩,
   malformed_records_skipped_and_manual_ok [("k", [["a"]])]
     ⟨some (some ⟨.objVal (some ""), [⟨some "mat"⟩]⟩)⟩ [("m", ⟨some [3], [9]⟩)] [] []
     (Or.inr (Or.inr ⟨_, rfl, Or.inr (Or.inr (Or.inl ⟨some "", rfl, by decide⟩))⟩))
     (by decide)⟩

/-! ## Claim C4 -/

/-- C4 counterexample: a manual-override record listing a catalog entry's own
id strips that id out of the entry's `all_ids`, so after manual processing the
invariant "all_ids always contains id" fails (entry "5" ends with an empty
`all_ids`). -/
theorem manual_strip_can_remove_own_id :
    processManualRecipes
        (buildClogItemsOutput [(5, ⟨5, "a", true, []⟩)] [("a", [5])] [("a", 5)] []) []
        [("m", ⟨some [5], []⟩)] =
      .ok ([("5", ⟨"a", [], [], none⟩)], [("m", ⟨some [5], []⟩)]) ∧
    (5 : Nat) ∉ (⟨"a", [], [], none⟩ : ClogEntry).all_ids := by
  refine ⟨rfl, ?_⟩
  decide

/-- Every entry of `stripIdsFromClogEntries` is the original entry with its
`all_ids` filtered by the removed ids (when the filter removes nothing, the
source keeps the entry, which is the same thing). -/
theorem mem_stripIdsFromClogEntries (ids : List Nat) (out : List (String × ClogEntry))
    (k : String) (e : ClogEntry) (h : (k, e) ∈ out) :
    (k, { e with all_ids := e.all_ids.filter (fun i => decide (i ∉ ids)) }) ∈
      stripIdsFromClogEntries ids out := by
  unfold stripIdsFromClogEntries
  refine List.mem_map.mpr ⟨(k, e), h, ?_⟩
  dsimp only
  split
  · rfl
  next hlen =>
    have hle := List.length_filter_le (fun i => decide (i ∉ ids)) e.all_ids
    have hlen2 : (e.all_ids.filter (fun i => decide (i ∉ ids))).length = e.all_ids.length := by
      omega
    have hfe : e.all_ids.filter (fun i => decide (i ∉ ids)) = e.all_ids :=
      (List.filter_sublist e.all_ids).eq_of_length hlen2
    rw [hfe]

/-- Manual processing transforms each catalog-output entry by (only ever)
filtering its `all_ids`: the result's list is a subset of the original, and
every id not mentioned by any manual record survives. -/
theorem processManualRecipesAux_entries (manual : List (String × ManualRecipe)) :
    ∀ (out : List (String × ClogEntry)) (derived : List (String × ManualRecipe))
      (res : List (String × ClogEntry) × List (String × ManualRecipe)),
    processManualRecipesAux manual out derived = .ok res →
    ∀ (k : String) (e : ClogEntry), (k, e) ∈ out →
    ∃ e', (k, e') ∈ res.1 ∧ e'.all_ids ⊆ e.all_ids ∧
      (∀ i ∈ e.all_ids, (∀ q ∈ manual, i ∉ q.2.item_ids.getD []) → i ∈ e'.all_ids) := by
  induction manual with
  | nil =>
    intro out derived res hres k e he
    cases hres
    exact ⟨e, he, fun _ h => h, fun i hi _ => hi⟩
  | cons q rest ih =>
    intro out derived res hres k e he
    obtain ⟨nm, rec⟩ := q
    unfold processManualRecipesAux at hres
    cases hq : rec.item_ids with
    | none =>
      rw [hq] at hres
      exact nomatch hres
    | some ids =>
      rw [hq] at hres
      have he1 := mem_stripIdsFromClogEntries ids out k e he
      obtain ⟨e', hmem, hsub, hret⟩ := ih _ _ _ hres k _ he1
      refine ⟨e', hmem, ?_, ?_⟩
      · intro i hi
        have := hsub hi
        simp only [List.mem_filter, decide_eq_true_eq] at this
        exact this.1
      · intro i hi hq'
        have hni : i ∉ ids := by
          have := hq' (nm, rec) (List.mem_cons_self _ _)
          rw [hq] at this
          exact this
        refine hret i ?_ ?_
        · simp only [List.mem_filter, decide_eq_true_eq]
          exact ⟨hi, hni⟩
        · intro q' hq''
          exact hq' q' (List.mem_cons_of_mem _ hq'')

/-- C4 (amended): in `buildClogItemsOutput` every catalog entry's `all_ids`
contains the entry's own id, and every additional id is not the id of a
different catalog entry; after manual-override stripping the additional-ids
invariant still holds and the own id is still present provided no manual
record lists that id — a manual record listing a catalog entry's own id
removes it (the counterexample). -/
theorem clog_all_ids_invariant_amended (clogItems : List (Nat × Item))
    (allIds : List (String × List Nat)) (clogs : List (String × Nat))
    (recipes : List (String × List (List String))) (manual : List (String × ManualRecipe))
    (derived : List (String × ManualRecipe))
    (res : List (String × ClogEntry) × List (String × ManualRecipe))
    (hres : processManualRecipes (buildClogItemsOutput clogItems allIds clogs recipes)
      derived manual = .ok res) :
    (∀ p ∈ clogItems, ∃ e : ClogEntry,
      (toString p.1, e) ∈ buildClogItemsOutput clogItems allIds clogs recipes ∧
      p.1 ∈ e.all_ids ∧ (∀ j ∈ e.all_ids, j ≠ p.1 → j ∉ clogItems.map Prod.fst)) ∧
    (∀ p ∈ clogItems, ∃ e : ClogEntry, (toString p.1, e) ∈ res.1 ∧
      ((∀ q ∈ manual, p.1 ∉ q.2.item_ids.getD []) → p.1 ∈ e.all_ids) ∧
      (∀ j ∈ e.all_ids, j ≠ p.1 → j ∉ clogItems.map Prod.fst)) := by
  have hpre : ∀ p ∈ clogItems, ∃ e : ClogEntry,
      (toString p.1, e) ∈ buildClogItemsOutput clogItems allIds clogs recipes ∧
      p.1 ∈ e.all_ids ∧ (∀ j ∈ e.all_ids, j ≠ p.1 → j ∉ clogItems.map Prod.fst) := by
    intro p hp
    refine ⟨_, List.mem_map.mpr ⟨p, hp, rfl⟩, ?_, ?_⟩
    · dsimp only
      rw [List.mem_insertionSort]
      exact List.mem_cons_self _ _
    · intro j hj hne
      dsimp only at hj
      rw [List.mem_insertionSort] at hj
      rcases List.mem_cons.mp hj with h | h
      · exact absurd h hne
      · have := List.mem_filter.mp h
        simp only [decide_eq_true_eq] at this
        exact this.2.2
  refine ⟨hpre, ?_⟩
  intro p hp
  obtain ⟨e, hmem, hid, hextra⟩ := hpre p hp
  unfold processManualRecipes at hres
  by_cases hempty : manual.isEmpty
  · rw [if_pos hempty] at hres
    cases hres
    refine ⟨e, hmem, fun _ => hid, hextra⟩
  · rw [if_neg hempty] at hres
    obtain ⟨e', hmem', hsub, hret⟩ :=
      processManualRecipesAux_entries manual _ derived res hres _ e hmem
    exact ⟨e', hmem', fun hq => hret p.1 hid hq, fun j hj hne => hextra j (hsub hj) hne⟩

/-- C4 amended witness: concrete run with one catalog item (id 5, one extra
bucket id 6 that is not a catalog id) and a manual record listing only id 6. -/
theorem clog_all_ids_invariant_amended_witness :
    (processManualRecipes
        (buildClogItemsOutput [(5, ⟨5, "a", true, []⟩)] [("a", [5, 6])] [("a", 5)] []) []
        [("m", ⟨some [6], []⟩)] =
      .ok ([("5", ⟨"a", [], [5], none⟩)], [("m", ⟨some [6], []⟩)]) ∧
      (5, (⟨5, "a", true, []⟩ : Item)) ∈ [(5, (⟨5, "a", true, []⟩ : Item))] ∧
      (∀ q ∈ [("m", (⟨some [6], []⟩ : ManualRecipe))], (5 : Nat) ∉ q.2.item_ids.getD [])) ∧
    (∃ e : ClogEntry, (toString (5 : Nat), e) ∈ [("5", (⟨"a", [], [5], none⟩ : ClogEntry))] ∧
      ((∀ q ∈ [("m", (⟨some [6], []⟩ : ManualRecipe))], (5 : Nat) ∉ q.2.item_ids.getD []) →
        (5 : Nat) ∈ e.all_ids) ∧
      (∀ j ∈ e.all_ids, j ≠ 5 → j ∉ ([(5, (⟨5, "a", true, []⟩ : Item))].map Prod.fst))) :=
  ⟨⟨rfl, by decide, by decide⟩,
   (clog_all_ids_invariant_amended [(5, ⟨5, "a", true, []⟩)] [("a", [5, 6])] [("a", 5)] []
      [("m", ⟨some [6], []⟩)] [] ([("5", ⟨"a", [], [5], none⟩)], [("m", ⟨some [6], []⟩)])
      rfl).2 (5, ⟨5, "a", true, []⟩) (by decide)⟩

/-! ## Claim C8 -/

/-- The sequence of per-recipe dependency sets exactly as the selection loop
computes them (same order, same cache threading). -/
def depsListAux (frec : List String → Cache → Finset Nat × Cache) :
    List (List String) → Cache → List (Finset Nat)
  | [], _ => []
  | r :: rs, c =>
    let res := frec r c
    res.1 :: depsListAux frec rs res.2

/-- The cache state after scanning a list of recipes. -/
def foldRecCache (frec : List String → Cache → Finset Nat × Cache) :
    List (List String) → Cache → Cache
  | [], c => c
  | r :: rs, c => foldRecCache frec rs (frec r c).2

/-- Pure running-minimum with strict improvement (first wins on ties),
tracking `(set, index)`; `k` is the index of the next element. -/
def selectFirstMin : List (Finset Nat) → Nat → (Finset Nat × Nat) → (Finset Nat × Nat)
  | [], _, best => best
  | d :: ds, k, best =>
    if d.card < best.1.card then selectFirstMin ds (k + 1) (d, k)
    else selectFirstMin ds (k + 1) best

/-- Index of the first element of minimal cardinality. -/
def firstMinIdx : List (Finset Nat) → Nat
  | [] => 0
  | d :: ds => if ∀ e ∈ ds, d.card ≤ e.card then 0 else firstMinIdx ds + 1

theorem minRecipesAux_eq_select (frec : List String → Cache → Finset Nat × Cache)
    (rs : List (List String)) :
    ∀ (c : Cache) (k : Nat) (d0 : Finset Nat) (b0 : Nat),
    (∀ d ∈ depsListAux frec rs c, d ≠ ∅) →
    minRecipesAux frec rs c k (some (d0, b0)) =
      (((selectFirstMin (depsListAux frec rs c) k (d0, b0)).1,
        ((selectFirstMin (depsListAux frec rs c) k (d0, b0)).2 : Int)),
       foldRecCache frec rs c) := by
  induction rs with
  | nil => intro c k d0 b0 _; rfl
  | cons r rs ih =>
    intro c k d0 b0 hne
    have hhead : (frec r c).1 ≠ ∅ := by
      refine hne _ ?_
      unfold depsListAux
      exact List.mem_cons_self _ _
    have hcard : (frec r c).1.card ≠ 0 := fun h => hhead (Finset.card_eq_zero.mp h)
    unfold minRecipesAux depsListAux foldRecCache selectFirstMin
    dsimp only
    by_cases hlt : (frec r c).1.card < d0.card
    · rw [if_pos (by simpa using hlt), if_neg hcard, if_pos hlt]
      refine ih _ _ _ _ ?_
      intro d hd
      refine hne d ?_
      unfold depsListAux
      exact List.mem_cons_of_mem _ hd
    · rw [if_neg (by simpa using hlt), if_neg hlt]
      refine ih _ _ _ _ ?_
      intro d hd
      refine hne d ?_
      unfold depsListAux
      exact List.mem_cons_of_mem _ hd

theorem firstMinIdx_cons (d : Finset Nat) (ds : List (Finset Nat)) :
    firstMinIdx (d :: ds) = if ∀ e ∈ ds, d.card ≤ e.card then 0 else firstMinIdx ds + 1 := rfl

theorem selectFirstMin_firstMin (ds : List (Finset Nat)) :
    ∀ (c : Nat) (d0 : Finset Nat) (b : Nat),
    selectFirstMin ds c (d0, b) =
      if ∀ e ∈ ds, d0.card ≤ e.card then (d0, b)
      else (ds.getD (firstMinIdx ds) ∅, c + firstMinIdx ds) := by
  induction ds with
  | nil => intro c d0 b; simp [selectFirstMin]
  | cons d1 ds ih =>
    intro c d0 b
    unfold selectFirstMin
    rw [firstMinIdx_cons]
    by_cases h1 : d1.card < d0.card
    · rw [if_pos h1, ih]
      have hno : ¬ ∀ e ∈ d1 :: ds, d0.card ≤ e.card := by
        intro hall
        have := hall d1 (List.mem_cons_self _ _)
        omega
      rw [if_neg hno]
      by_cases h2 : ∀ e ∈ ds, d1.card ≤ e.card
      · rw [if_pos h2, if_pos h2]
        simp
      · rw [if_neg h2, if_neg h2]
        rw [List.getD_cons_succ, Prod.mk.injEq]
        exact ⟨rfl, by omega⟩
    · rw [if_neg h1, ih]
      have hle : d0.card ≤ d1.card := by omega
      by_cases h2 : ∀ e ∈ ds, d0.card ≤ e.card
      · rw [if_pos h2, if_pos ?_]
        intro e he
        rcases List.mem_cons.mp he with h | h
        · rw [h]; exact hle
        · exact h2 e h
      · have hno : ¬ ∀ e ∈ d1 :: ds, d0.card ≤ e.card := by
          intro hall
          exact h2 (fun e he => hall e (List.mem_cons_of_mem _ he))
        rw [if_neg h2, if_neg hno]
        have h3 : ¬ ∀ e ∈ ds, d1.card ≤ e.card := by
          push_neg at h2 ⊢
          obtain ⟨e, he, hlt⟩ := h2
          exact ⟨e, he, by omega⟩
        rw [if_neg h3, List.getD_cons_succ, Prod.mk.injEq]
        exact ⟨rfl, by omega⟩

theorem selectFirstMin_cons (d0 : Finset Nat) (ds : List (Finset Nat)) (k : Nat) :
    selectFirstMin ds (k + 1) (d0, k) =
      ((d0 :: ds).getD (firstMinIdx (d0 :: ds)) ∅, k + firstMinIdx (d0 :: ds)) := by
  rw [selectFirstMin_firstMin, firstMinIdx_cons]
  by_cases h : ∀ e ∈ ds, d0.card ≤ e.card
  · rw [if_pos h, if_pos h]
    simp
  · rw [if_neg h, if_neg h, List.getD_cons_succ, Prod.mk.injEq]
    exact ⟨rfl, by omega⟩

/-- C8: when an item has several recipe alternatives, none of whose computed
dependency sets is empty, and the minimum cardinality is attained more than
once, the resolver returns the set of the *first* alternative attaining the
minimum (list order) and caches that alternative's index — in particular
index 0 when the first alternative is already minimal. -/
theorem tie_break_keeps_first_alternative (clogs : List (String × Nat))
    (recipes : List (String × List (List String))) (fuel : Nat) (cache : Cache) (x : String)
    (r : List String) (rs : List (List String))
    (hcache : lookupA cache (pyLower x) = none)
    (hclog : lookupA clogs (pyLower x) = none)
    (hrec : (lookupA recipes (pyLower x)).getD [] = r :: rs)
    (hds : ∀ d ∈ depsListAux (fun mats c => findRecAux (findMin clogs recipes fuel) clogs mats c
      (insert (pyLower x) ∅) ∅) (r :: rs) cache, d ≠ ∅)
    (htie : ∃ i j, i < j ∧
      j < (depsListAux (fun mats c => findRecAux (findMin clogs recipes fuel) clogs mats c
        (insert (pyLower x) ∅) ∅) (r :: rs) cache).length ∧
      ((depsListAux (fun mats c => findRecAux (findMin clogs recipes fuel) clogs mats c
        (insert (pyLower x) ∅) ∅) (r :: rs) cache).getD i ∅).card =
      ((depsListAux (fun mats c => findRecAux (findMin clogs recipes fuel) clogs mats c
        (insert (pyLower x) ∅) ∅) (r :: rs) cache).getD j ∅).card ∧
      (∀ e ∈ depsListAux (fun mats c => findRecAux (findMin clogs recipes fuel) clogs mats c
        (insert (pyLower x) ∅) ∅) (r :: rs) cache,
        ((depsListAux (fun mats c => findRecAux (findMin clogs recipes fuel) clogs mats c
          (insert (pyLower x) ∅) ∅) (r :: rs) cache).getD i ∅).card ≤ e.card)) :
    (findMin clogs recipes (fuel + 1) cache ∅ x).1 =
      (depsListAux (fun mats c => findRecAux (findMin clogs recipes fuel) clogs mats c
        (insert (pyLower x) ∅) ∅) (r :: rs) cache).getD
        (firstMinIdx (depsListAux (fun mats c => findRecAux (findMin clogs recipes fuel) clogs
          mats c (insert (pyLower x) ∅) ∅) (r :: rs) cache)) ∅ ∧
    lookupA (findMin clogs recipes (fuel + 1) cache ∅ x).2 (pyLower x) =
      some ((depsListAux (fun mats c => findRecAux (findMin clogs recipes fuel) clogs mats c
        (insert (pyLower x) ∅) ∅) (r :: rs) cache).getD
          (firstMinIdx (depsListAux (fun mats c => findRecAux (findMin clogs recipes fuel) clogs
            mats c (insert (pyLower x) ∅) ∅) (r :: rs) cache)) ∅,
        (firstMinIdx (depsListAux (fun mats c => findRecAux (findMin clogs recipes fuel) clogs
          mats c (insert (pyLower x) ∅) ∅) (r :: rs) cache) : Int)) ∧
    ((∀ e ∈ depsListAux (fun mats c => findRecAux (findMin clogs recipes fuel) clogs mats c
        (insert (pyLower x) ∅) ∅) (r :: rs) cache,
      ((depsListAux (fun mats c => findRecAux (findMin clogs recipes fuel) clogs mats c
        (insert (pyLower x) ∅) ∅) (r :: rs) cache).getD 0 ∅).card ≤ e.card) →
      firstMinIdx (depsListAux (fun mats c => findRecAux (findMin clogs recipes fuel) clogs
        mats c (insert (pyLower x) ∅) ∅) (r :: rs) cache) = 0) := by
  set frec := fun mats c => findRecAux (findMin clogs recipes fuel) clogs mats c
    (insert (pyLower x) ∅) ∅ with hfrec
  set ds := depsListAux frec (r :: rs) cache with hds0
  have hhead : (frec r cache).1 ≠ ∅ := by
    refine hds _ ?_
    rw [hds0]
    unfold depsListAux
    exact List.mem_cons_self _ _
  have hcard : (frec r cache).1.card ≠ 0 := fun h => hhead (Finset.card_eq_zero.mp h)
  have hmain : findMin clogs recipes (fuel + 1) cache ∅ x =
      (ds.getD (firstMinIdx ds) ∅,
       insertA (foldRecCache frec (r :: rs) cache) (pyLower x)
         (ds.getD (firstMinIdx ds) ∅, (firstMinIdx ds : Int))) := by
    unfold findMin
    dsimp only
    rw [hcache]
    dsimp only
    rw [if_neg (Finset.not_mem_empty _)]
    rw [hclog]
    dsimp only
    rw [hrec]
    dsimp only
    have hloop : minRecipesAux frec (r :: rs) cache 0 none =
        ((ds.getD (firstMinIdx ds) ∅, (firstMinIdx ds : Int)), foldRecCache frec (r :: rs) cache) := by
      unfold minRecipesAux
      dsimp only
      rw [if_pos rfl, if_neg hcard]
      have hrest : ∀ d ∈ depsListAux frec rs (frec r cache).2, d ≠ ∅ := by
        intro d hd
        refine hds d ?_
        rw [hds0]
        unfold depsListAux
        exact List.mem_cons_of_mem _ hd
      rw [minRecipesAux_eq_select frec rs (frec r cache).2 1 (frec r cache).1 0 hrest]
      have hsel := selectFirstMin_cons (frec r cache).1 (depsListAux frec rs (frec r cache).2) 0
      simp only [Nat.zero_add] at hsel
      rw [hsel]
      rw [hds0]
      rfl
    rw [hloop]
  refine ⟨?_, ?_, ?_⟩
  · rw [hmain]
  · rw [hmain]
    dsimp only
    rw [lookupA_insertA, if_pos rfl]
  · intro h0
    rw [hds0]
    rw [hds0] at h0
    unfold depsListAux at h0 ⊢
    dsimp only at h0 ⊢
    rw [List.getD_cons_zero] at h0
    unfold firstMinIdx
    rw [if_pos (fun e he => h0 e (List.mem_cons_of_mem _ he))]

/-- C8 witness: "x" has two alternatives, both with 2-element dependency sets
of different ids (a tie); the resolver returns the first alternative's set
`{1, 2}` and caches chosen index 0. -/
theorem tie_break_keeps_first_alternative_witness :
    ((findMin [("c1", 1), ("c2", 2), ("c3", 3), ("c4", 4)]
        [("x", [["c1", "c2"], ["c3", "c4"]])] 9 [] ∅ "x").1 = {1, 2} ∧
      lookupA (findMin [("c1", 1), ("c2", 2), ("c3", 3), ("c4", 4)]
        [("x", [["c1", "c2"], ["c3", "c4"]])] 9 [] ∅ "x").2 "x" = some ({1, 2}, 0)) ∧
    firstMinIdx (depsListAux (fun mats c => findRecAux
      (findMin [("c1", 1), ("c2", 2), ("c3", 3), ("c4", 4)]
        [("x", [["c1", "c2"], ["c3", "c4"]])] 8) [("c1", 1), ("c2", 2), ("c3", 3), ("c4", 4)]
      mats c (insert (pyLower "x") ∅) ∅) [["c1", "c2"], ["c3", "c4"]] []) = 0 := by
  have h := tie_break_keeps_first_alternative [("c1", 1), ("c2", 2), ("c3", 3), ("c4", 4)]
    [("x", [["c1", "c2"], ["c3", "c4"]])] 8 [] "x" ["c1", "c2"] [["c3", "c4"]]
    (by decide) (by decide) (by decide) (by decide)
    ⟨0, 1, by decide, by decide, by decide, by decide⟩
  exact ⟨⟨h.1.trans (by decide), h.2.1.trans (by decide)⟩, h.2.2 (by decide)⟩

/-! ## Claim C6 -/

theorem lookupA_mem {α : Type} (l : List (String × α)) (n : String) (v : α)
    (h : lookupA l n = some v) : (n, v) ∈ l := by
  induction l with
  | nil => exact nomatch h
  | cons hd tl ih =>
    obtain ⟨k, w⟩ := hd
    rw [lookupA_cons] at h
    by_cases hk : k = n
    · rw [if_pos hk] at h
      cases h
      rw [hk]
      exact List.mem_cons_self _ _
    · rw [if_neg hk] at h
      exact List.mem_cons_of_mem _ (ih h)

/-- All recipe lists stored in the state are nonempty (true of every state the
pipeline builds: the graph builder only appends nonempty material lists and
the linker only writes `[[base]]` or appends to existing recipes). -/
def RecipesNE (st : RState) : Prop :=
  ∀ n rs, lookupA st.recipes n = some rs → rs ≠ []

/-- The condition under which one pattern iteration leaves the state
untouched: one of the four skip checks fires, or the variant already has a
recipe listing the base as a material. -/
def NoopCond (base : String) (allIds : List (String × List Nat))
    (clogs : List (String × Nat)) (st : RState) (p : String × String × String) : Prop :=
  (p.1 ≠ "" ∧ ¬ (pyEndsWith base (pyLower p.1) = true)) ∨
  lookupA allIds (variantNameOf base p) = none ∨
  (lookupA clogs (variantNameOf base p)).isSome = true ∨
  variantNameOf base p = base ∨
  (∃ rs, lookupA st.recipes (variantNameOf base p) = some rs ∧
    rs.any (fun r => r.contains base) = true)

theorem processOnePattern_of_noop (base : String) (allIds : List (String × List Nat))
    (clogs : List (String × Nat)) (st : RState) (p : String × String × String)
    (h : NoopCond base allIds clogs st p) :
    processOnePattern base allIds clogs st p = (st, 0, 0) := by
  unfold processOnePattern
  dsimp only
  split
  · rfl
  next h1 =>
    split
    · rfl
    next h2 =>
      split
      · rfl
      next h3 =>
        split
        · rfl
        next h4 =>
          rcases h with h | h | h | h | ⟨rs, hrs, hany⟩
          · exact absurd h h1
          · exact absurd h h2
          · exact absurd h h3
          · exact absurd h h4
          · split
            next rs' heq =>
              rw [heq] at hrs
              cases hrs
              split
              · rfl
              next hb => exact absurd hany hb
            next heq =>
              rw [heq] at hrs
              exact nomatch hrs

theorem RecipesNE.stepOne (base : String) (allIds : List (String × List Nat))
    (clogs : List (String × Nat)) (st : RState) (p : String × String × String)
    (h : RecipesNE st) : RecipesNE (processOnePattern base allIds clogs st p).1 := by
  rcases processOnePattern_cases base allIds clogs st p with heq | ⟨rs, hrs, hnb, heq⟩ | ⟨hno, heq⟩
  · rw [heq]
    exact h
  · rw [heq]
    intro n rs' hl
    dsimp only at hl
    rw [lookupA_insertA] at hl
    by_cases hn : variantNameOf base p = n
    · rw [if_pos hn] at hl
      cases hl
      intro hnil
      exact h _ rs hrs (List.map_eq_nil_iff.mp hnil)
    · rw [if_neg hn] at hl
      exact h n rs' hl
  · rw [heq]
    intro n rs' hl
    dsimp only at hl
    rw [lookupA_insertA] at hl
    by_cases hn : variantNameOf base p = n
    · rw [if_pos hn] at hl
      cases hl
      exact fun hnil => nomatch hnil
    · rw [if_neg hn] at hl
      exact h n rs' hl

theorem contains_append_base (r : List String) (base : String) :
    (r ++ [base]).contains base = true := by
  simp

theorem NoopCond.establish (base : String) (allIds : List (String × List Nat))
    (clogs : List (String × Nat)) (st : RState) (p : String × String × String)
    (h : RecipesNE st) :
    NoopCond base allIds clogs (processOnePattern base allIds clogs st p).1 p := by
  unfold processOnePattern
  dsimp only
  split
  next h1 => exact Or.inl h1
  next h1 =>
    split
    next h2 => exact Or.inr (Or.inl h2)
    next h2 =>
      split
      next h3 => exact Or.inr (Or.inr (Or.inl h3))
      next h3 =>
        split
        next h4 => exact Or.inr (Or.inr (Or.inr (Or.inl h4)))
        next h4 =>
          split
          next rs heq =>
            split
            next hb => exact Or.inr (Or.inr (Or.inr (Or.inr ⟨rs, heq, hb⟩)))
            next hb =>
              refine Or.inr (Or.inr (Or.inr (Or.inr
                ⟨rs.map (fun r => r ++ [base]), ?_, ?_⟩)))
              · dsimp only
                rw [lookupA_insertA, if_pos rfl]
              · obtain ⟨r0, hr0⟩ := List.exists_mem_of_ne_nil rs (h _ rs heq)
                rw [List.any_eq_true]
                exact ⟨r0 ++ [base], List.mem_map.mpr ⟨r0, hr0, rfl⟩,
                  contains_append_base r0 base⟩
          next heq =>
            refine Or.inr (Or.inr (Or.inr (Or.inr ⟨[[base]], ?_, ?_⟩)))
            · dsimp only
              rw [lookupA_insertA, if_pos rfl]
            · rw [List.any_eq_true]
              exact ⟨[base], List.mem_cons_self _ _, by simp⟩

theorem NoopCond.preserve (base : String) (allIds : List (String × List Nat))
    (clogs : List (String × Nat)) (st : RState) (p q : String × String × String)
    (h : NoopCond base allIds clogs st q) :
    NoopCond base allIds clogs (processOnePattern base allIds clogs st p).1 q := by
  rcases processOnePattern_cases base allIds clogs st p with heq | ⟨rs, hrs, hnb, heq⟩ | ⟨hno, heq⟩
  · rw [heq]
    exact h
  · rcases h with h | h | h | h | ⟨rsq, hlq, hanyq⟩
    · exact Or.inl h
    · exact Or.inr (Or.inl h)
    · exact Or.inr (Or.inr (Or.inl h))
    · exact Or.inr (Or.inr (Or.inr (Or.inl h)))
    · rw [heq]
      refine Or.inr (Or.inr (Or.inr (Or.inr ?_)))
      dsimp only
      by_cases hn : variantNameOf base p = variantNameOf base q
      · rw [hn] at hrs
        rw [hlq] at hrs
        cases hrs
        refine ⟨rs.map (fun r => r ++ [base]), ?_, ?_⟩
        · rw [lookupA_insertA, if_pos hn]
        · rw [List.any_eq_true] at hanyq ⊢
          obtain ⟨r0, hr0, _⟩ := hanyq
          exact ⟨r0 ++ [base], List.mem_map.mpr ⟨r0, hr0, rfl⟩, contains_append_base r0 base⟩
      · refine ⟨rsq, ?_, hanyq⟩
        rw [lookupA_insertA, if_neg hn]
        exact hlq
  · rcases h with h | h | h | h | ⟨rsq, hlq, hanyq⟩
    · exact Or.inl h
    · exact Or.inr (Or.inl h)
    · exact Or.inr (Or.inr (Or.inl h))
    · exact Or.inr (Or.inr (Or.inr (Or.inl h)))
    · rw [heq]
      refine Or.inr (Or.inr (Or.inr (Or.inr ?_)))
      dsimp only
      by_cases hn : variantNameOf base p = variantNameOf base q
      · rw [hn, hlq] at hno
        exact nomatch hno
      · refine ⟨rsq, ?_, hanyq⟩
        rw [lookupA_insertA, if_neg hn]
        exact hlq

theorem processPatternsAux_preserve_noop (base : String) (allIds : List (String × List Nat))
    (clogs : List (String × Nat)) (ps : List (String × String × String)) (st : RState)
    (a u : Nat) (q : String × String × String) (h : NoopCond base allIds clogs st q) :
    NoopCond base allIds clogs (processPatternsAux base allIds clogs ps st a u).1 q := by
  induction ps generalizing st a u with
  | nil => exact h
  | cons p ps ih =>
    unfold processPatternsAux
    exact ih _ _ _ (NoopCond.preserve base allIds clogs st p q h)

theorem processPatternsAux_preserve_ne (base : String) (allIds : List (String × List Nat))
    (clogs : List (String × Nat)) (ps : List (String × String × String)) (st : RState)
    (a u : Nat) (h : RecipesNE st) :
    RecipesNE (processPatternsAux base allIds clogs ps st a u).1 := by
  induction ps generalizing st a u with
  | nil => exact h
  | cons p ps ih =>
    unfold processPatternsAux
    exact ih _ _ _ (RecipesNE.stepOne base allIds clogs st p h)

theorem processPatternsAux_establish (base : String) (allIds : List (String × List Nat))
    (clogs : List (String × Nat)) (ps : List (String × String × String)) (st : RState)
    (a u : Nat) (h : RecipesNE st) :
    ∀ p ∈ ps, NoopCond base allIds clogs (processPatternsAux base allIds clogs ps st a u).1 p := by
  induction ps generalizing st a u with
  | nil => exact fun p hp => absurd hp (List.not_mem_nil p)
  | cons p ps ih =>
    intro q hq
    unfold processPatternsAux
    rcases List.mem_cons.mp hq with hq | hq
    · subst hq
      exact processPatternsAux_preserve_noop base allIds clogs ps _ _ _ q
        (NoopCond.establish base allIds clogs st q h)
    · exact ih _ _ _ (RecipesNE.stepOne base allIds clogs st p h) q hq

theorem processPatternsAux_noop (base : String) (allIds : List (String × List Nat))
    (clogs : List (String × Nat)) (ps : List (String × String × String)) (st : RState)
    (a u : Nat) (h : ∀ p ∈ ps, NoopCond base allIds clogs st p) :
    processPatternsAux base allIds clogs ps st a u = (st, a, u) := by
  induction ps generalizing a u with
  | nil => rfl
  | cons p ps ih =>
    unfold processPatternsAux
    rw [processOnePattern_of_noop base allIds clogs st p (h p (List.mem_cons_self _ _))]
    dsimp only
    rw [Nat.add_zero, Nat.add_zero]
    exact ih _ _ (fun q hq => h q (List.mem_cons_of_mem _ hq))

/-- C6 counterexample: the full two-phase linker is *not* idempotent. Catalog
item "x" (id 1); the name universe contains "x", "x (l)", "x (l) (broken)"
and "x (l) (broken) (l)". Run 1 creates virtual recipes for "x (l)"
(phase 1) and "x (l) (broken)" (phase 2, created after the phase-2 snapshot
was taken). Run 2's phase 2 now sees "x (l) (broken)" in its snapshot and
creates a further virtual recipe for "x (l) (broken) (l)", so the RecipeSet
after two applications differs from the RecipeSet after one. -/
theorem variant_linker_not_idempotent :
    (buildVariantRelationships 20 [(1, ⟨1, "x", true, []⟩)] [("x", 1)]
        [("x", [1]), ("x (l)", [2]), ("x (l) (broken)", [3]), ("x (l) (broken) (l)", [4])]
        (buildVariantRelationships 20 [(1, ⟨1, "x", true, []⟩)] [("x", 1)]
          [("x", [1]), ("x (l)", [2]), ("x (l) (broken)", [3]), ("x (l) (broken) (l)", [4])]
          ⟨[], []⟩)).recipes ≠
      (buildVariantRelationships 20 [(1, ⟨1, "x", true, []⟩)] [("x", 1)]
        [("x", [1]), ("x (l)", [2]), ("x (l) (broken)", [3]), ("x (l) (broken) (l)", [4])]
        ⟨[], []⟩).recipes := by
  decide

/-- C6 (amended): the pattern pass itself is idempotent per base — a second
`_process_variant_patterns` run with the same base on the already-linked
state is a complete no-op (state unchanged, zero added, zero updated): the
"already lists the base name" guard blocks a second append and an existing
(virtual) recipe blocks a duplicate virtual recipe. The full two-phase
`build_variant_relationships`, however, is not idempotent: its second run can
create virtual recipes for variants of items that only gained recipes during
the first run's phase 2, after that run's snapshot (see the counterexample). -/
theorem variant_pattern_pass_idempotent_per_base (base : String)
    (allIds : List (String × List Nat)) (clogs : List (String × Nat)) (st : RState)
    (hne : ∀ q ∈ st.recipes, q.2 ≠ []) :
    processVariantPatterns base allIds clogs (processVariantPatterns base allIds clogs st).1 =
      ((processVariantPatterns base allIds clogs st).1, 0, 0) := by
  have hne' : RecipesNE st := by
    intro n rs hl
    exact hne (n, rs) (lookupA_mem st.recipes n rs hl)
  unfold processVariantPatterns
  exact processPatternsAux_noop base allIds clogs VARIANT_PATTERNS _ 0 0
    (processPatternsAux_establish base allIds clogs VARIANT_PATTERNS st 0 0 hne')

/-- C6 amended witness: a second pattern pass over the already-linked state of
the C2 scenario is a no-op. -/
theorem variant_pattern_pass_idempotent_per_base_witness :
    (∀ q ∈ ([("d", [["c"]])] : List (String × List (List String))), q.2 ≠ []) ∧
    processVariantPatterns "d" [("d", [7]), ("d (l)", [8])] [("c", 1)]
        (processVariantPatterns "d" [("d", [7]), ("d (l)", [8])] [("c", 1)]
          ⟨[("d", [["c"]])], []⟩).1 =
      ((processVariantPatterns "d" [("d", [7]), ("d (l)", [8])] [("c", 1)]
          ⟨[("d", [["c"]])], []⟩).1, 0, 0) :=
  ⟨by decide,
   variant_pattern_pass_idempotent_per_base "d" [("d", [7]), ("d (l)", [8])] [("c", 1)]
     ⟨[("d", [["c"]])], []⟩ (by decide)⟩

/-! ## Claim C1 -/

/-- Cache invariant for the soundness direction of the restriction policy:
every cached entry of a catalog-free-producible name is the empty set.
It holds for the empty cache and is preserved by every resolver call. -/
def CacheFreeInv (clogs : List (String × Nat)) (recipes : List (String × List (List String)))
    (c : Cache) : Prop :=
  ∀ n s i, lookupA c n = some (s, i) → ProducibleFree clogs recipes n → s = ∅

theorem CacheFreeInv.empty (clogs : List (String × Nat))
    (recipes : List (String × List (List String))) : CacheFreeInv clogs recipes [] :=
  fun _ _ _ h _ => nomatch h

theorem findRecAux_free (clogs : List (String × Nat))
    (recipes : List (String × List (List String)))
    (fm : Cache → Finset String → String → Finset Nat × Cache)
    (hfm : ∀ c V y, CacheFreeInv clogs recipes c →
      CacheFreeInv clogs recipes (fm c V y).2 ∧
      (ProducibleFree clogs recipes (pyLower y) → (fm c V y).1 = ∅)) :
    ∀ (mats : List String) (c : Cache) (V : Finset String) (acc : Finset Nat),
    CacheFreeInv clogs recipes c →
    CacheFreeInv clogs recipes (findRecAux fm clogs mats c V acc).2 ∧
    ((∀ m ∈ mats, ProducibleFree clogs recipes (pyLower m)) →
      (findRecAux fm clogs mats c V acc).1 = acc) := by
  intro mats
  induction mats with
  | nil => exact fun c V acc hc => ⟨hc, fun _ => rfl⟩
  | cons m ms ih =>
    intro c V acc hc
    unfold findRecAux
    dsimp only
    by_cases hv : pyLower m ∈ V
    · rw [if_pos hv]
      obtain ⟨h1, h2⟩ := ih c V acc hc
      exact ⟨h1, fun hall => h2 (fun m' hm' => hall m' (List.mem_cons_of_mem _ hm'))⟩
    · rw [if_neg hv]
      obtain ⟨hinv', hval'⟩ := hfm c V (pyLower m) hc
      obtain ⟨hinv'', hval''⟩ := ih (fm c V (pyLower m)).2 V
        ((match lookupA clogs (pyLower m) with
          | some cid => insert cid acc
          | none => acc) ∪ (fm c V (pyLower m)).1) hinv'
      refine ⟨hinv'', ?_⟩
      intro hall
      have hpf : ProducibleFree clogs recipes (pyLower m) :=
        hall m (List.mem_cons_self _ _)
      have hclog : lookupA clogs (pyLower m) = none := hpf.not_clog
      have hrec : (fm c V (pyLower m)).1 = ∅ := by
        refine hval' ?_
        rw [pyLower_idem]
        exact hpf
      have heq : (match lookupA clogs (pyLower m) with
          | some cid => insert cid acc
          | none => acc) ∪ (fm c V (pyLower m)).1 = acc := by
        rw [hclog, hrec]
        exact Finset.union_empty acc
      rw [hval'' (fun m' hm' => hall m' (List.mem_cons_of_mem _ hm')), heq]

theorem minRecipesAux_free (clogs : List (String × Nat))
    (recipes : List (String × List (List String)))
    (frec : List String → Cache → Finset Nat × Cache)
    (hfrecInv : ∀ r c, CacheFreeInv clogs recipes c → CacheFreeInv clogs recipes (frec r c).2)
    (hfrecVal : ∀ r c, CacheFreeInv clogs recipes c →
      (∀ m ∈ r, ProducibleFree clogs recipes (pyLower m)) → (frec r c).1 = ∅) :
    ∀ (rs : List (List String)) (c : Cache) (k : Nat) (best : Option (Finset Nat × Nat)),
    CacheFreeInv clogs recipes c →
    CacheFreeInv clogs recipes (minRecipesAux frec rs c k best).2 ∧
    ((∃ r ∈ rs, ∀ m ∈ r, ProducibleFree clogs recipes (pyLower m)) →
      (best = none ∨ ∃ d i, best = some (d, i) ∧ d ≠ ∅) →
      (minRecipesAux frec rs c k best).1.1 = ∅) := by
  intro rs
  induction rs with
  | nil =>
    intro c k best hc
    cases best with
    | none => exact ⟨hc, fun hex _ => absurd hex.choose_spec.1 (List.not_mem_nil _)⟩
    | some b =>
      obtain ⟨d, i⟩ := b
      exact ⟨hc, fun hex _ => absurd hex.choose_spec.1 (List.not_mem_nil _)⟩
  | cons r' rs' ih =>
    intro c k best hc
    unfold minRecipesAux
    dsimp only
    have hinv1 : CacheFreeInv clogs recipes (frec r' c).2 := hfrecInv r' c hc
    by_cases htake : (match best with
      | none => true
      | some (d, _) => decide ((frec r' c).1.card < d.card)) = true
    · rw [if_pos htake]
      by_cases hzero : (frec r' c).1.card = 0
      · rw [if_pos hzero]
        exact ⟨hinv1, fun _ _ => Finset.card_eq_zero.mp hzero⟩
      · rw [if_neg hzero]
        obtain ⟨hinv2, hval2⟩ := ih (frec r' c).2 (k + 1) (some ((frec r' c).1, k)) hinv1
        refine ⟨hinv2, ?_⟩
        intro ⟨r, hr, hall⟩ _
        rcases List.mem_cons.mp hr with hr | hr
        · subst hr
          exact absurd (Finset.card_eq_zero.mpr (hfrecVal r c hc hall)) hzero
        · refine hval2 ⟨r, hr, hall⟩ (Or.inr ⟨(frec r' c).1, k, rfl, ?_⟩)
          intro hnil
          exact hzero (by rw [hnil]; rfl)
    · rw [if_neg htake]
      obtain ⟨hinv2, hval2⟩ := ih (frec r' c).2 (k + 1) best hinv1
      refine ⟨hinv2, ?_⟩
      intro ⟨r, hr, hall⟩ hbest
      rcases List.mem_cons.mp hr with hr | hr
      · subst hr
        exfalso
        have hzero : (frec r c).1.card = 0 := Finset.card_eq_zero.mpr (hfrecVal r c hc hall)
        rcases hbest with hb | ⟨d, i, hb, hd⟩
        · rw [hb] at htake
          exact htake rfl
        · rw [hb] at htake
          have hdpos : 0 < d.card := Finset.card_pos.mpr (Finset.nonempty_iff_ne_empty.mpr hd)
          refine htake ?_
          rw [hzero]
          exact decide_eq_true hdpos
      · exact hval2 ⟨r, hr, hall⟩ hbest

theorem findMin_free (clogs : List (String × Nat))
    (recipes : List (String × List (List String))) :
    ∀ (fuel : Nat) (c : Cache) (V : Finset String) (x : String),
    CacheFreeInv clogs recipes c →
    CacheFreeInv clogs recipes (findMin clogs recipes fuel c V x).2 ∧
    (ProducibleFree clogs recipes (pyLower x) →
      (findMin clogs recipes fuel c V x).1 = ∅) := by
  intro fuel
  induction fuel with
  | zero => exact fun c V x hc => ⟨hc, fun _ => rfl⟩
  | succ f ihf =>
    intro c V x hc
    unfold findMin
    dsimp only
    cases hl : lookupA c (pyLower x) with
    | some si =>
      refine ⟨hc, ?_⟩
      intro hpf
      obtain ⟨s, i⟩ := si
      exact hc (pyLower x) s i hl hpf
    | none =>
      by_cases hv : pyLower x ∈ V
      · rw [if_pos hv]
        exact ⟨hc, fun _ => rfl⟩
      · rw [if_neg hv]
        cases hcl : lookupA clogs (pyLower x) with
        | some cid =>
          dsimp only
          constructor
          · intro n s i hln hpfn
            rw [lookupA_insertA] at hln
            by_cases hn : pyLower x = n
            · rw [if_pos hn] at hln
              cases hln
              exact absurd hpfn (fun hp => by
                rw [← hn] at hp
                rw [hp.not_clog] at hcl
                exact nomatch hcl)
            · rw [if_neg hn] at hln
              exact hc n s i hln hpfn
          · intro hpf
            rw [hpf.not_clog] at hcl
            exact nomatch hcl
        | none =>
          cases hr : (lookupA recipes (pyLower x)).getD [] with
          | nil =>
            dsimp only
            constructor
            · intro n s i hln hpfn
              rw [lookupA_insertA] at hln
              by_cases hn : pyLower x = n
              · rw [if_pos hn] at hln
                cases hln
                rfl
              · rw [if_neg hn] at hln
                exact hc n s i hln hpfn
            · exact fun _ => rfl
          | cons r rs =>
            dsimp only
            have hfm : ∀ c' V' y, CacheFreeInv clogs recipes c' →
                CacheFreeInv clogs recipes (findMin clogs recipes f c' V' y).2 ∧
                (ProducibleFree clogs recipes (pyLower y) →
                  (findMin clogs recipes f c' V' y).1 = ∅) :=
              fun c' V' y hc' => ihf c' V' y hc'
            have hrecaux := findRecAux_free clogs recipes (findMin clogs recipes f) hfm
            have hmr := minRecipesAux_free clogs recipes
              (fun mats c' => findRecAux (findMin clogs recipes f) clogs mats c'
                (insert (pyLower x) V) ∅)
              (fun r' c' hc' => (hrecaux r' c' (insert (pyLower x) V) ∅ hc').1)
              (fun r' c' hc' hall => (hrecaux r' c' (insert (pyLower x) V) ∅ hc').2 hall)
              (r :: rs) c 0 none hc
            have hbest0 : (none : Option (Finset Nat × Nat)) = none ∨
                ∃ d i, (none : Option (Finset Nat × Nat)) = some (d, i) ∧ d ≠ ∅ := Or.inl rfl
            have hwin : ProducibleFree clogs recipes (pyLower x) →
                (minRecipesAux (fun mats c' => findRecAux (findMin clogs recipes f) clogs mats c'
                  (insert (pyLower x) V) ∅) (r :: rs) c 0 none).1.1 = ∅ := by
              intro hxpf
              cases hxpf with
              | leaf _ _ hre => rw [hre] at hr; exact nomatch hr
              | step _ rr hcl2 hmem hall =>
                rw [hr] at hmem
                exact hmr.2 ⟨rr, hmem, hall⟩ hbest0
            constructor
            · intro n s i hln hpfn
              rw [lookupA_insertA] at hln
              by_cases hn : pyLower x = n
              · rw [if_pos hn] at hln
                have hsi := Option.some.inj hln
                have hs : (minRecipesAux (fun mats c' => findRecAux (findMin clogs recipes f)
                    clogs mats c' (insert (pyLower x) V) ∅) (r :: rs) c 0 none).1.1 = s := by
                  rw [hsi]
                rw [← hs]
                refine hwin ?_
                rw [hn]
                exact hpfn
              · rw [if_neg hn] at hln
                exact hmr.1 n s i hln hpfn
            · exact hwin

/-- C1 counterexample: in the cyclic graph `x ← [y]`, `y ← [x] | [c]` with
catalog item "c" (id 9), the item "x" has no catalog-free production path
(every terminating way to make "x" needs "c"), yet the resolver classifies it
unrestricted: the cycle guard makes alternative `[x]` of "y" contribute the
empty set, which wins by early exit. So "restricted iff every alternative
transitively requires a catalog item" fails on cyclic graphs. -/
theorem cyclic_item_without_free_path_unrestricted :
    ¬ ProducibleFree [("c", 9)] [("x", [["y"]]), ("y", [["x"], ["c"]])] "x" ∧
    (findMin [("c", 9)] [("x", [["y"]]), ("y", [["x"], ["c"]])] 10 [] ∅ "x").1 = ∅ ∧
    (isItemRestricted [("c", 9)] [("x", [["y"]]), ("y", [["x"], ["c"]])] 10 [] "x").1 = false := by
  refine ⟨?_, by decide, by decide⟩
  have haux : ∀ n, ProducibleFree [("c", 9)] [("x", [["y"]]), ("y", [["x"], ["c"]])] n →
      n ≠ "x" ∧ n ≠ "y" := by
    intro n h
    induction h with
    | leaf n hc hre =>
      constructor
      · intro he
        rw [he] at hre
        exact absurd hre (by decide)
      · intro he
        rw [he] at hre
        exact absurd hre (by decide)
    | step n r hc hmem hall ih =>
      constructor
      · intro he
        rw [he] at hmem
        have hm2 : r ∈ [["y"]] := hmem
        rw [List.mem_singleton] at hm2
        subst hm2
        exact (ih "y" (List.mem_singleton.mpr rfl)).2 (by decide)
      · intro he
        rw [he] at hmem
        have hm2 : r ∈ [["x"], ["c"]] := hmem
        rcases List.mem_cons.mp hm2 with hm | hm
        · subst hm
          exact (ih "x" (List.mem_singleton.mpr rfl)).1 (by decide)
        · rw [List.mem_singleton] at hm
          subst hm
          have hpc := (hall "c" (List.mem_singleton.mpr rfl)).not_clog
          exact absurd hpc (by decide)
  intro h
  exact (haux "x" h).1 rfl

/-- C1 (amended): the policy holds in the sound direction — whenever any
alternative path for an item is entirely free of catalog-item materials
(`ProducibleFree`), the resolver returns the empty set and classifies the
item unrestricted; conversely, a restricted classification implies the item
has no catalog-free path. The missing direction (no catalog-free path implies
restricted) fails on cyclic graphs, where the cycle guard under-approximates
(see the counterexample and spec §9). The cache hypothesis is the invariant
the resolver itself maintains, holding in particular for the empty cache. -/
theorem restriction_policy_sound (clogs : List (String × Nat))
    (recipes : List (String × List (List String))) (fuel : Nat) (cache : Cache) (x : String)
    (hinv : CacheFreeInv clogs recipes cache) :
    (ProducibleFree clogs recipes (pyLower x) →
      (findMin clogs recipes fuel cache ∅ x).1 = ∅ ∧
      (isItemRestricted clogs recipes fuel cache x).1 = false) ∧
    ((isItemRestricted clogs recipes fuel cache x).1 = true →
      ¬ ProducibleFree clogs recipes (pyLower x)) := by
  have hmain := findMin_free clogs recipes fuel cache ∅ x hinv
  constructor
  · intro hpf
    have hempty := hmain.2 hpf
    refine ⟨hempty, ?_⟩
    unfold isItemRestricted
    dsimp only
    rw [hempty]
    rfl
  · intro hres hpf
    have hempty := hmain.2 hpf
    unfold isItemRestricted at hres
    dsimp only at hres
    rw [hempty] at hres
    exact absurd hres (by decide)

/-- C1 amended witness: "x" with a catalog-free alternative `["z"]` (a base
resource) resolves to the empty set and is unrestricted, even though its
other alternative needs catalog item "c". -/
theorem restriction_policy_sound_witness :
    (ProducibleFree [("c", 9)] [("x", [["c"], ["z"]])] (pyLower "x") ∧
      CacheFreeInv [("c", 9)] [("x", [["c"], ["z"]])] []) ∧
    ((findMin [("c", 9)] [("x", [["c"], ["z"]])] 10 [] ∅ "x").1 = ∅ ∧
      (isItemRestricted [("c", 9)] [("x", [["c"], ["z"]])] 10 [] "x").1 = false) := by
  have hz : ProducibleFree [("c", 9)] [("x", [["c"], ["z"]])] "z" :=
    ProducibleFree.leaf "z" (by decide) (by decide)
  have hx : ProducibleFree [("c", 9)] [("x", [["c"], ["z"]])] (pyLower "x") := by
    refine ProducibleFree.step (pyLower "x") ["z"] (by decide) ?_ ?_
    · decide
    · intro m hm
      have : m = "z" := by
        cases hm with
        | head => rfl
        | tail _ h => exact absurd h (List.not_mem_nil m)
      rw [this]
      exact hz
  exact ⟨⟨hx, CacheFreeInv.empty _ _⟩,
    (restriction_policy_sound [("c", 9)] [("x", [["c"], ["z"]])] 10 [] "x"
      (CacheFreeInv.empty _ _)).1 hx⟩

/-! ## Claim C7 -/

/-- After `find_minimum_clog_dependencies` on an unvisited, uncached name, the
cache maps that (lowered) name to the returned set. -/
theorem findMin_caches (clogs : List (String × Nat))
    (recipes : List (String × List (List String))) (f : Nat) (c : Cache) (V : Finset String)
    (m : String) (hf : f ≠ 0) (hv : pyLower m ∉ V) :
    ∃ i, lookupA (findMin clogs recipes f c V m).2 (pyLower m) =
      some ((findMin clogs recipes f c V m).1, i) := by
  match f with
  | 0 => exact absurd rfl hf
  | f + 1 =>
    unfold findMin
    dsimp only
    cases hl : lookupA c (pyLower m) with
    | some si =>
      obtain ⟨s, i⟩ := si
      exact ⟨i, hl⟩
    | none =>
      rw [if_neg hv]
      cases hcl : lookupA clogs (pyLower m) with
      | some cid =>
        refine ⟨0, ?_⟩
        rw [lookupA_insertA, if_pos rfl]
      | none =>
        cases hr : (lookupA recipes (pyLower m)).getD [] with
        | nil =>
          refine ⟨-1, ?_⟩
          rw [lookupA_insertA, if_pos rfl]
        | cons r rs =>
          dsimp only
          refine ⟨(minRecipesAux (fun mats c' => findRecAux (findMin clogs recipes f) clogs
            mats c' (insert (pyLower m) V) ∅) (r :: rs) c 0 none).1.2, ?_⟩
          rw [lookupA_insertA, if_pos rfl]

theorem findRecAux_preserves (clogs : List (String × Nat))
    (fm : Cache → Finset String → String → Finset Nat × Cache)
    (hfm : ∀ c V y n w, lookupA c n = some w → lookupA (fm c V y).2 n = some w) :
    ∀ (mats : List String) (c : Cache) (V : Finset String) (acc : Finset Nat) (n : String)
      (w : Finset Nat × Int), lookupA c n = some w →
      lookupA (findRecAux fm clogs mats c V acc).2 n = some w := by
  intro mats
  induction mats with
  | nil => exact fun c V acc n w h => h
  | cons m ms ih =>
    intro c V acc n w h
    unfold findRecAux
    dsimp only
    by_cases hv : pyLower m ∈ V
    · rw [if_pos hv]
      exact ih c V acc n w h
    · rw [if_neg hv]
      exact ih _ _ _ n w (hfm c V (pyLower m) n w h)

theorem minRecipesAux_preserves (frec : List String → Cache → Finset Nat × Cache)
    (hfrec : ∀ r c n w, lookupA c n = some w → lookupA (frec r c).2 n = some w) :
    ∀ (rs : List (List String)) (c : Cache) (k : Nat) (best : Option (Finset Nat × Nat))
      (n : String) (w : Finset Nat × Int), lookupA c n = some w →
      lookupA (minRecipesAux frec rs c k best).2 n = some w := by
  intro rs
  induction rs with
  | nil =>
    intro c k best n w h
    cases best with
    | none => exact h
    | some b =>
      obtain ⟨d, i⟩ := b
      exact h
  | cons r rs ih =>
    intro c k best n w h
    unfold minRecipesAux
    dsimp only
    have h1 := hfrec r c n w h
    by_cases htake : (match best with
      | none => true
      | some (d, _) => decide ((frec r c).1.card < d.card)) = true
    · rw [if_pos htake]
      by_cases hzero : (frec r c).1.card = 0
      · rw [if_pos hzero]
        exact h1
      · rw [if_neg hzero]
        exact ih _ _ _ n w h1
    · rw [if_neg htake]
      exact ih _ _ _ n w h1

theorem findMin_preserves (clogs : List (String × Nat))
    (recipes : List (String × List (List String))) :
    ∀ (f : Nat) (c : Cache) (V : Finset String) (y : String) (n : String)
      (w : Finset Nat × Int), lookupA c n = some w →
      lookupA (findMin clogs recipes f c V y).2 n = some w := by
  intro f
  induction f with
  | zero => exact fun c V y n w h => h
  | succ f ihf =>
    intro c V y n w h
    unfold findMin
    dsimp only
    cases hl : lookupA c (pyLower y) with
    | some si => exact h
    | none =>
      have hny : ¬ (pyLower y = n) := fun he => by
        rw [he] at hl
        rw [hl] at h
        exact nomatch h
      by_cases hv : pyLower y ∈ V
      · rw [if_pos hv]
        exact h
      · rw [if_neg hv]
        cases hcl : lookupA clogs (pyLower y) with
        | some cid =>
          rw [lookupA_insertA, if_neg hny]
          exact h
        | none =>
          cases hr : (lookupA recipes (pyLower y)).getD [] with
          | nil =>
            rw [lookupA_insertA, if_neg hny]
            exact h
          | cons r rs =>
            dsimp only
            rw [lookupA_insertA, if_neg hny]
            refine minRecipesAux_preserves _ ?_ (r :: rs) c 0 none n w h
            intro r' c' n' w' h'
            exact findRecAux_preserves clogs (findMin clogs recipes f)
              (fun c'' V'' y'' n'' w'' h'' => ihf c'' V'' y'' n'' w'' h'') r' c' _ _ n' w' h'

theorem foldRecCache_preserves (frec : List String → Cache → Finset Nat × Cache)
    (hfrec : ∀ r c n w, lookupA c n = some w → lookupA (frec r c).2 n = some w) :
    ∀ (rs : List (List String)) (c : Cache) (n : String) (w : Finset Nat × Int),
      lookupA c n = some w → lookupA (foldRecCache frec rs c) n = some w := by
  intro rs
  induction rs with
  | nil => exact fun c n w h => h
  | cons r rs ih =>
    intro c n w h
    unfold foldRecCache
    exact ih _ n w (hfrec r c n w h)

theorem findRecAux_none_of_visited (clogs : List (String × Nat))
    (fm : Cache → Finset String → String → Finset Nat × Cache) (k : String)
    (hfm : ∀ c V y, k ∈ V → lookupA c k = none → lookupA (fm c V y).2 k = none) :
    ∀ (mats : List String) (c : Cache) (V : Finset String) (acc : Finset Nat),
      k ∈ V → lookupA c k = none →
      lookupA (findRecAux fm clogs mats c V acc).2 k = none := by
  intro mats
  induction mats with
  | nil => exact fun c V acc _ h => h
  | cons m ms ih =>
    intro c V acc hk h
    unfold findRecAux
    dsimp only
    by_cases hv : pyLower m ∈ V
    · rw [if_pos hv]
      exact ih c V acc hk h
    · rw [if_neg hv]
      exact ih _ _ _ hk (hfm c V (pyLower m) hk h)

theorem minRecipesAux_none_of_visited (frec : List String → Cache → Finset Nat × Cache)
    (k : String) (hfrec : ∀ r c, lookupA c k = none → lookupA (frec r c).2 k = none) :
    ∀ (rs : List (List String)) (c : Cache) (j : Nat) (best : Option (Finset Nat × Nat)),
      lookupA c k = none → lookupA (minRecipesAux frec rs c j best).2 k = none := by
  intro rs
  induction rs with
  | nil =>
    intro c j best h
    cases best with
    | none => exact h
    | some b =>
      obtain ⟨d, i⟩ := b
      exact h
  | cons r rs ih =>
    intro c j best h
    unfold minRecipesAux
    dsimp only
    have h1 := hfrec r c h
    by_cases htake : (match best with
      | none => true
      | some (d, _) => decide ((frec r c).1.card < d.card)) = true
    · rw [if_pos htake]
      by_cases hzero : (frec r c).1.card = 0
      · rw [if_pos hzero]
        exact h1
      · rw [if_neg hzero]
        exact ih _ _ _ h1
    · rw [if_neg htake]
      exact ih _ _ _ h1

/-- A name in the visited set never gains a cache entry (the cycle guard
returns before caching, and every nested call's visited set is larger). -/
theorem findMin_none_of_visited (clogs : List (String × Nat))
    (recipes : List (String × List (List String))) (k : String) :
    ∀ (f : Nat) (c : Cache) (V : Finset String) (y : String),
      k ∈ V → lookupA c k = none →
      lookupA (findMin clogs recipes f c V y).2 k = none := by
  intro f
  induction f with
  | zero => exact fun c V y _ h => h
  | succ f ihf =>
    intro c V y hk h
    unfold findMin
    dsimp only
    cases hl : lookupA c (pyLower y) with
    | some si => exact h
    | none =>
      by_cases hv : pyLower y ∈ V
      · rw [if_pos hv]
        exact h
      · have hny : ¬ (pyLower y = k) := fun he => hv (he ▸ hk)
        rw [if_neg hv]
        cases hcl : lookupA clogs (pyLower y) with
        | some cid =>
          rw [lookupA_insertA, if_neg hny]
          exact h
        | none =>
          cases hr : (lookupA recipes (pyLower y)).getD [] with
          | nil =>
            rw [lookupA_insertA, if_neg hny]
            exact h
          | cons r rs =>
            dsimp only
            rw [lookupA_insertA, if_neg hny]
            refine minRecipesAux_none_of_visited _ k ?_ (r :: rs) c 0 none h
            intro r' c' h'
            exact findRecAux_none_of_visited clogs (findMin clogs recipes f) k
              (fun c'' V'' y'' hk'' h'' => ihf c'' V'' y'' hk'' h'') r' c' _ _
              (Finset.mem_insert_of_mem hk) h'

theorem findRecAux_cons (fm : Cache → Finset String → String → Finset Nat × Cache)
    (clogs : List (String × Nat)) (m : String) (ms : List String) (c : Cache)
    (V : Finset String) (acc : Finset Nat) :
    findRecAux fm clogs (m :: ms) c V acc =
      if pyLower m ∈ V then findRecAux fm clogs ms c V acc
      else findRecAux fm clogs ms (fm c V (pyLower m)).2 V
        ((match lookupA clogs (pyLower m) with
          | some cid => insert cid acc
          | none => acc) ∪ (fm c V (pyLower m)).1) := rfl

theorem findMin_hit (clogs : List (String × Nat))
    (recipes : List (String × List (List String))) (f : Nat) (C : Cache) (V : Finset String)
    (y : String) (s : Finset Nat) (i : Int) (h : lookupA C (pyLower y) = some (s, i)) :
    findMin clogs recipes (f + 1) C V y = (s, C) := by
  unfold findMin
  dsimp only
  rw [h]

/-- Each material's contribution to a recipe scanned during resolution is
contained in its contribution when the same recipe is re-scanned later (fresh
empty visited set) against any cache that extends the cache the first scan
produced: visited skips only drop contributions, and every computed material
was cached, so the re-scan returns the identical set for it. -/
theorem findRecAux_sub (clogs : List (String × Nat))
    (recipes : List (String × List (List String))) (f : Nat) :
    ∀ (mats : List String) (c : Cache) (V : Finset String) (acc : Finset Nat)
      (C : Cache) (acc2 : Finset Nat),
    (∀ n w, lookupA (findRecAux (findMin clogs recipes f) clogs mats c V acc).2 n = some w →
      lookupA C n = some w) →
    acc ⊆ acc2 →
    (findRecAux (findMin clogs recipes f) clogs mats c V acc).1 ⊆
      (findRecAux (findMin clogs recipes f) clogs mats C ∅ acc2).1 := by
  intro mats
  induction mats with
  | nil =>
    intro c V acc C acc2 _ hacc
    exact hacc
  | cons m ms ih =>
    intro c V acc C acc2 H hacc
    have hr2 : findRecAux (findMin clogs recipes f) clogs (m :: ms) C ∅ acc2 =
        findRecAux (findMin clogs recipes f) clogs ms
          (findMin clogs recipes f C ∅ (pyLower m)).2 ∅
          ((match lookupA clogs (pyLower m) with
            | some cid => insert cid acc2
            | none => acc2) ∪ (findMin clogs recipes f C ∅ (pyLower m)).1) := by
      rw [findRecAux_cons, if_neg (Finset.not_mem_empty _)]
    rw [hr2]
    have hacc2' : acc2 ⊆ (match lookupA clogs (pyLower m) with
        | some cid => insert cid acc2
        | none => acc2) ∪ (findMin clogs recipes f C ∅ (pyLower m)).1 := by
      refine Finset.Subset.trans ?_ Finset.subset_union_left
      cases lookupA clogs (pyLower m) with
      | some cid => exact Finset.subset_insert cid acc2
      | none => exact Finset.Subset.refl acc2
    by_cases hv : pyLower m ∈ V
    · have hr1 : findRecAux (findMin clogs recipes f) clogs (m :: ms) c V acc =
          findRecAux (findMin clogs recipes f) clogs ms c V acc := by
        rw [findRecAux_cons, if_pos hv]
      rw [hr1] at H ⊢
      refine ih c V acc _ _ ?_ (Finset.Subset.trans hacc hacc2')
      intro n w hn
      exact findMin_preserves clogs recipes f C ∅ (pyLower m) n w (H n w hn)
    · have hr1 : findRecAux (findMin clogs recipes f) clogs (m :: ms) c V acc =
          findRecAux (findMin clogs recipes f) clogs ms
            (findMin clogs recipes f c V (pyLower m)).2 V
            ((match lookupA clogs (pyLower m) with
              | some cid => insert cid acc
              | none => acc) ∪ (findMin clogs recipes f c V (pyLower m)).1) := by
        rw [findRecAux_cons, if_neg hv]
      rw [hr1] at H ⊢
      have hval : (findMin clogs recipes f c V (pyLower m)).1 ⊆
          (findMin clogs recipes f C ∅ (pyLower m)).1 := by
        match f with
        | 0 => exact Finset.empty_subset _
        | f' + 1 =>
          obtain ⟨i, hi⟩ := findMin_caches clogs recipes (f' + 1) c V (pyLower m)
            (Nat.succ_ne_zero f') (by rw [pyLower_idem]; exact hv)
          rw [pyLower_idem] at hi
          have hi2 : lookupA (findRecAux (findMin clogs recipes (f' + 1)) clogs ms
              (findMin clogs recipes (f' + 1) c V (pyLower m)).2 V
              ((match lookupA clogs (pyLower m) with
                | some cid => insert cid acc
                | none => acc) ∪ (findMin clogs recipes (f' + 1) c V (pyLower m)).1)).2
              (pyLower m) = some ((findMin clogs recipes (f' + 1) c V (pyLower m)).1, i) :=
            findRecAux_preserves clogs (findMin clogs recipes (f' + 1))
              (fun c'' V'' y'' n'' w'' h'' =>
                findMin_preserves clogs recipes (f' + 1) c'' V'' y'' n'' w'' h'') ms _ _ _ _ _ hi
          have hC : lookupA C (pyLower m) =
              some ((findMin clogs recipes (f' + 1) c V (pyLower m)).1, i) := H _ _ hi2
          have hhit := findMin_hit clogs recipes f' C ∅ (pyLower m) _ i (by
            rw [pyLower_idem]
            exact hC)
          rw [hhit]
      refine ih _ V _ _ _ ?_ ?_
      · intro n w hn
        exact findMin_preserves clogs recipes f C ∅ (pyLower m) n w (H n w hn)
      · refine Finset.union_subset_union ?_ hval
        cases lookupA clogs (pyLower m) with
        | some cid => exact Finset.insert_subset_insert cid hacc
        | none => exact hacc

/-- The selection loop's result has cardinality no larger than the running
best and than every per-recipe set it computes (on early exit the result is
empty, which is trivially minimal). -/
theorem minRecipesAux_nil (frec : List String → Cache → Finset Nat × Cache) (c : Cache)
    (idx : Nat) (best : Option (Finset Nat × Nat)) :
    minRecipesAux frec [] c idx best =
      (match best with
       | some (d, i) => ((d, (i : Int)), c)
       | none => ((∅, -1), c)) := rfl

theorem minRecipesAux_cons (frec : List String → Cache → Finset Nat × Cache)
    (r : List String) (rs : List (List String)) (c : Cache) (idx : Nat)
    (best : Option (Finset Nat × Nat)) :
    minRecipesAux frec (r :: rs) c idx best =
      if (match best with
          | none => true
          | some (d, _) => decide ((frec r c).1.card < d.card)) = true then
        (if (frec r c).1.card = 0 then (((frec r c).1, (idx : Int)), (frec r c).2)
         else minRecipesAux frec rs (frec r c).2 (idx + 1) (some ((frec r c).1, idx)))
      else minRecipesAux frec rs (frec r c).2 (idx + 1) best := rfl

/-- The selection loop's result has cardinality no larger than the running
best and than every per-recipe set it computes (on early exit the result is
empty, which is trivially minimal). -/
theorem minRecipesAux_card_le (frec : List String → Cache → Finset Nat × Cache) :
    ∀ (rs : List (List String)) (c : Cache) (k : Nat) (best : Option (Finset Nat × Nat)),
    (∀ db ib, best = some (db, ib) →
      (minRecipesAux frec rs c k best).1.1.card ≤ db.card) ∧
    (∀ d ∈ depsListAux frec rs c, (minRecipesAux frec rs c k best).1.1.card ≤ d.card) := by
  intro rs
  induction rs with
  | nil =>
    intro c k best
    cases best with
    | none =>
      constructor
      · intro db ib h
        exact Option.noConfusion h
      · intro d hd
        exact absurd hd (List.not_mem_nil d)
    | some b =>
      obtain ⟨db, ib⟩ := b
      constructor
      · intro db' ib' h
        have h' := Option.some.inj h
        have hdb : db = db' := congrArg Prod.fst h'
        rw [← hdb]
        exact Nat.le_refl _
      · intro d hd
        exact absurd hd (List.not_mem_nil d)
  | cons r rs ih =>
    intro c k best
    have hdl : depsListAux frec (r :: rs) c =
        (frec r c).1 :: depsListAux frec rs (frec r c).2 := rfl
    cases best with
    | none =>
      rw [minRecipesAux_cons]
      dsimp only
      rw [if_pos rfl]
      by_cases hzero : (frec r c).1.card = 0
      · rw [if_pos hzero]
        constructor
        · intro db ib h
          exact Option.noConfusion h
        · intro d hd
          dsimp only
          rw [hzero]
          exact Nat.zero_le _
      · rw [if_neg hzero]
        obtain ⟨ihb, ihm⟩ := ih (frec r c).2 (k + 1) (some ((frec r c).1, k))
        constructor
        · intro db ib h
          exact Option.noConfusion h
        · intro d hd
          rw [hdl] at hd
          rcases List.mem_cons.mp hd with hd | hd
          · rw [hd]
            exact ihb _ k rfl
          · exact ihm d hd
    | some b =>
      obtain ⟨db, ib⟩ := b
      rw [minRecipesAux_cons]
      dsimp only
      by_cases htake : (frec r c).1.card < db.card
      · rw [if_pos (decide_eq_true htake)]
        by_cases hzero : (frec r c).1.card = 0
        · rw [if_pos hzero]
          constructor
          · intro db' ib' h
            dsimp only
            rw [hzero]
            exact Nat.zero_le _
          · intro d hd
            dsimp only
            rw [hzero]
            exact Nat.zero_le _
        · rw [if_neg hzero]
          obtain ⟨ihb, ihm⟩ := ih (frec r c).2 (k + 1) (some ((frec r c).1, k))
          constructor
          · intro db' ib' h
            have h' := Option.some.inj h
            have hdb : db = db' := congrArg Prod.fst h'
            rw [← hdb]
            exact Nat.le_trans (ihb _ k rfl) (Nat.le_of_lt htake)
          · intro d hd
            rw [hdl] at hd
            rcases List.mem_cons.mp hd with hd | hd
            · rw [hd]
              exact ihb _ k rfl
            · exact ihm d hd
      · rw [if_neg (by simpa using htake)]
        obtain ⟨ihb, ihm⟩ := ih (frec r c).2 (k + 1) (some (db, ib))
        constructor
        · intro db' ib' h
          have h' := Option.some.inj h
          have hdb : db = db' := congrArg Prod.fst h'
          rw [← hdb]
          exact ihb db ib rfl
        · intro d hd
          rw [hdl] at hd
          rcases List.mem_cons.mp hd with hd | hd
          · rw [hd]
            exact Nat.le_trans (ihb db ib rfl) (Nat.le_of_not_lt htake)
          · exact ihm d hd

/-- When the loop's winner is nonempty there was no early exit, so the final
cache is the full fold over all recipes. -/
theorem minRecipesAux_cache_of_ne_empty (frec : List String → Cache → Finset Nat × Cache) :
    ∀ (rs : List (List String)) (c : Cache) (k : Nat) (best : Option (Finset Nat × Nat)),
    (minRecipesAux frec rs c k best).1.1 ≠ ∅ →
    (minRecipesAux frec rs c k best).2 = foldRecCache frec rs c := by
  intro rs
  induction rs with
  | nil =>
    intro c k best _
    cases best with
    | none => rfl
    | some b =>
      obtain ⟨d, i⟩ := b
      rfl
  | cons r rs ih =>
    intro c k best hne
    rw [minRecipesAux_cons] at hne ⊢
    cases best with
    | none =>
      dsimp only at hne ⊢
      rw [if_pos rfl] at hne ⊢
      by_cases hzero : (frec r c).1.card = 0
      · rw [if_pos hzero] at hne
        exact absurd (Finset.card_eq_zero.mp hzero) hne
      · rw [if_neg hzero] at hne ⊢
        exact ih _ _ _ hne
    | some b =>
      obtain ⟨db, ib⟩ := b
      dsimp only at hne ⊢
      by_cases htake : (frec r c).1.card < db.card
      · rw [if_pos (decide_eq_true htake)] at hne ⊢
        by_cases hzero : (frec r c).1.card = 0
        · rw [if_pos hzero] at hne
          exact absurd (Finset.card_eq_zero.mp hzero) hne
        · rw [if_neg hzero] at hne ⊢
          exact ih _ _ _ hne
      · rw [if_neg (by simpa using htake)] at hne ⊢
        exact ih _ _ _ hne

/-- Each per-recipe set computed while resolving an item is contained in the
corresponding set `get_all_recipes_with_deps` computes afterwards against any
cache extending the resolution's final cache. -/
theorem depsList_le_getAll (clogs : List (String × Nat))
    (recipes : List (String × List (List String))) (f : Nat) (V : Finset String) :
    ∀ (rs : List (List String)) (c C : Cache),
    (∀ n w, lookupA (foldRecCache (fun mats c' =>
        findRecAux (findMin clogs recipes f) clogs mats c' V ∅) rs c) n = some w →
      lookupA C n = some w) →
    List.Forall₂ (fun d pr => d ⊆ pr.2)
      (depsListAux (fun mats c' =>
        findRecAux (findMin clogs recipes f) clogs mats c' V ∅) rs c)
      ((getAllAux (fun mats c' => findRec clogs recipes f mats c' ∅) rs C).1) := by
  intro rs
  induction rs with
  | nil =>
    intro c C _
    exact List.Forall₂.nil
  | cons r rs ih =>
    intro c C H
    have hstep : ∀ n w,
        lookupA (findRecAux (findMin clogs recipes f) clogs r c V ∅).2 n = some w →
        lookupA C n = some w := by
      intro n w h
      refine H n w ?_
      exact foldRecCache_preserves _
        (fun r' c' n' w' h' => findRecAux_preserves clogs (findMin clogs recipes f)
          (fun a b y d e g => findMin_preserves clogs recipes f a b y d e g) r' c' V ∅ n' w' h')
        rs _ n w h
    have hhead : (findRecAux (findMin clogs recipes f) clogs r c V ∅).1 ⊆
        (findRec clogs recipes f r C ∅).1 :=
      findRecAux_sub clogs recipes f r c V ∅ C ∅ hstep (Finset.Subset.refl ∅)
    have htail := ih (findRecAux (findMin clogs recipes f) clogs r c V ∅).2
      (findRec clogs recipes f r C ∅).2 (by
        intro n w h
        have h1 := H n w h
        exact findRecAux_preserves clogs (findMin clogs recipes f)
          (fun a b y d e g => findMin_preserves clogs recipes f a b y d e g) r C ∅ ∅ n w h1)
    exact List.Forall₂.cons hhead htail

theorem forallTwo_mem_right {α β : Type} {R : α → β → Prop} :
    ∀ {l₁ : List α} {l₂ : List β}, List.Forall₂ R l₁ l₂ → ∀ b ∈ l₂, ∃ a ∈ l₁, R a b := by
  intro l₁ l₂ h
  induction h with
  | nil =>
    intro b hb
    exact absurd hb (List.not_mem_nil b)
  | cons hR hF ih =>
    intro b hb
    rcases List.mem_cons.mp hb with hb | hb
    · subst hb
      exact ⟨_, List.mem_cons_self _ _, hR⟩
    · obtain ⟨a, ha, haR⟩ := ih b hb
      exact ⟨a, List.mem_cons_of_mem _ ha, haR⟩

/-- C7 counterexample: for a catalog item name the claim fails — the catalog
check short-circuits resolution to the singleton `{own id}` (cardinality 1),
while `get_all_recipes_with_deps` still scans the item's recipes and can
expose an alternative with an empty dependency set (cardinality 0). -/
theorem clog_item_breaks_monotonic_optimality :
    (findMin [("d", 5)] [("d", [["b"]])] 10 [] ∅ "d").1.card = 1 ∧
    (["b"], (∅ : Finset Nat)) ∈ (getAllRecipesWithDeps [("d", 5)] [("d", [["b"]])] 9
      (findMin [("d", 5)] [("d", [["b"]])] 10 [] ∅ "d").2 "d").1 ∧
    ¬ ((findMin [("d", 5)] [("d", [["b"]])] 10 [] ∅ "d").1.card ≤
      ((∅ : Finset Nat)).card) := by
  refine ⟨by decide, by decide, by decide⟩

/-- C7 (amended): for every *non-catalog* item name `x`, resolving `x` from a
clean cache and then asking `get_all_recipes_with_deps` for all alternatives,
the cardinality of the minimum dependency set is at most the cardinality of
every alternative's dependency set. (For catalog names the property fails —
see the counterexample — because resolution short-circuits to `{own id}`
without consulting recipes.) -/
theorem min_card_le_every_alternative (clogs : List (String × Nat))
    (recipes : List (String × List (List String))) (f : Nat) (x : String)
    (hclog : lookupA clogs (pyLower x) = none) :
    ∀ pr ∈ (getAllRecipesWithDeps clogs recipes f
        (findMin clogs recipes (f + 1) [] ∅ x).2 x).1,
      (findMin clogs recipes (f + 1) [] ∅ x).1.card ≤ pr.2.card := by
  intro pr hpr
  cases hr : (lookupA recipes (pyLower x)).getD [] with
  | nil =>
    have hga : (getAllRecipesWithDeps clogs recipes f
        (findMin clogs recipes (f + 1) [] ∅ x).2 x).1 = [] := by
      unfold getAllRecipesWithDeps
      dsimp only
      rw [hr]
      rfl
    rw [hga] at hpr
    exact absurd hpr (List.not_mem_nil pr)
  | cons r rs =>
    have hfm : findMin clogs recipes (f + 1) [] ∅ x =
        ((minRecipesAux (fun mats c' => findRecAux (findMin clogs recipes f) clogs mats c'
            (insert (pyLower x) ∅) ∅) (r :: rs) [] 0 none).1.1,
         insertA (minRecipesAux (fun mats c' => findRecAux (findMin clogs recipes f) clogs
            mats c' (insert (pyLower x) ∅) ∅) (r :: rs) [] 0 none).2 (pyLower x)
          (minRecipesAux (fun mats c' => findRecAux (findMin clogs recipes f) clogs mats c'
            (insert (pyLower x) ∅) ∅) (r :: rs) [] 0 none).1) := by
      unfold findMin
      dsimp only
      rw [lookupA_nil]
      rw [if_neg (Finset.not_mem_empty _)]
      rw [hclog]
      dsimp only
      rw [hr]
    rw [hfm] at hpr ⊢
    dsimp only at hpr ⊢
    by_cases hu : (minRecipesAux (fun mats c' => findRecAux (findMin clogs recipes f) clogs
        mats c' (insert (pyLower x) ∅) ∅) (r :: rs) [] 0 none).1.1 = ∅
    · rw [hu]
      exact Nat.zero_le _
    · have hcache := minRecipesAux_cache_of_ne_empty
        (fun mats c' => findRecAux (findMin clogs recipes f) clogs mats c'
          (insert (pyLower x) ∅) ∅) (r :: rs) [] 0 none hu
      have hnotin : lookupA (minRecipesAux (fun mats c' => findRecAux (findMin clogs recipes f)
          clogs mats c' (insert (pyLower x) ∅) ∅) (r :: rs) [] 0 none).2 (pyLower x) = none := by
        refine minRecipesAux_none_of_visited _ (pyLower x) ?_ (r :: rs) [] 0 none rfl
        intro r' c' h'
        exact findRecAux_none_of_visited clogs (findMin clogs recipes f) (pyLower x)
          (fun c'' V'' y'' hk h'' => findMin_none_of_visited clogs recipes (pyLower x) f
            c'' V'' y'' hk h'') r' c' (insert (pyLower x) ∅) ∅
          (Finset.mem_insert_self _ _) h'
      have H : ∀ n w, lookupA (foldRecCache (fun mats c' =>
          findRecAux (findMin clogs recipes f) clogs mats c' (insert (pyLower x) ∅) ∅)
          (r :: rs) []) n = some w →
          lookupA (insertA (minRecipesAux (fun mats c' => findRecAux (findMin clogs recipes f)
            clogs mats c' (insert (pyLower x) ∅) ∅) (r :: rs) [] 0 none).2 (pyLower x)
            (minRecipesAux (fun mats c' => findRecAux (findMin clogs recipes f) clogs mats c'
              (insert (pyLower x) ∅) ∅) (r :: rs) [] 0 none).1) n = some w := by
        intro n w h
        rw [← hcache] at h
        rw [lookupA_insertA]
        by_cases hn : pyLower x = n
        · rw [← hn] at h
          rw [hnotin] at h
          exact nomatch h
        · rw [if_neg hn]
          exact h
      have hga : (getAllRecipesWithDeps clogs recipes f
          (insertA (minRecipesAux (fun mats c' => findRecAux (findMin clogs recipes f) clogs
            mats c' (insert (pyLower x) ∅) ∅) (r :: rs) [] 0 none).2 (pyLower x)
            (minRecipesAux (fun mats c' => findRecAux (findMin clogs recipes f) clogs mats c'
              (insert (pyLower x) ∅) ∅) (r :: rs) [] 0 none).1) x).1 =
          (getAllAux (fun mats c' => findRec clogs recipes f mats c' ∅) (r :: rs)
            (insertA (minRecipesAux (fun mats c' => findRecAux (findMin clogs recipes f) clogs
              mats c' (insert (pyLower x) ∅) ∅) (r :: rs) [] 0 none).2 (pyLower x)
              (minRecipesAux (fun mats c' => findRecAux (findMin clogs recipes f) clogs mats c'
                (insert (pyLower x) ∅) ∅) (r :: rs) [] 0 none).1)).1 := by
        unfold getAllRecipesWithDeps
        dsimp only
        rw [hr]
      rw [hga] at hpr
      have hf2 := depsList_le_getAll clogs recipes f (insert (pyLower x) ∅) (r :: rs) []
        (insertA (minRecipesAux (fun mats c' => findRecAux (findMin clogs recipes f) clogs
          mats c' (insert (pyLower x) ∅) ∅) (r :: rs) [] 0 none).2 (pyLower x)
          (minRecipesAux (fun mats c' => findRecAux (findMin clogs recipes f) clogs mats c'
            (insert (pyLower x) ∅) ∅) (r :: rs) [] 0 none).1) H
      obtain ⟨d, hd, hsub⟩ := forallTwo_mem_right hf2 pr hpr
      have hle := (minRecipesAux_card_le (fun mats c' => findRecAux (findMin clogs recipes f)
        clogs mats c' (insert (pyLower x) ∅) ∅) (r :: rs) [] 0 none).2 d hd
      exact Nat.le_trans hle (Finset.card_le_card hsub)

/-- C7 amended witness: non-catalog "x" with alternatives `["c"]` (deps `{1}`)
and `["c", "c2"]` (deps `{1, 2}`): the minimum (cardinality 1) is no worse
than the exposed alternative of cardinality 2. -/
theorem min_card_le_every_alternative_witness :
    (lookupA [("c", 1), ("c2", 2)] (pyLower "x") = none ∧
      (["c", "c2"], ({1, 2} : Finset Nat)) ∈
        (getAllRecipesWithDeps [("c", 1), ("c2", 2)] [("x", [["c"], ["c", "c2"]])] 9
          (findMin [("c", 1), ("c2", 2)] [("x", [["c"], ["c", "c2"]])] 10 [] ∅ "x").2 "x").1) ∧
    (findMin [("c", 1), ("c2", 2)] [("x", [["c"], ["c", "c2"]])] 10 [] ∅ "x").1.card ≤
      ({1, 2} : Finset Nat).card :=
  ⟨⟨by decide, by decide⟩,
   min_card_le_every_alternative [("c", 1), ("c2", 2)] [("x", [["c"], ["c", "c2"]])] 9 "x"
     (by decide) (["c", "c2"], {1, 2}) (by decide)⟩

end ClogBuilder
